import Mathlib

/-!
zap-loki: batching worker, wire format, authenticators and sink.

Shallow embedding of `zaploki.go`, `auth.go` and `sink.go`.

Conventions of the embedding:
* A Go `string` or `[]byte` that can hold arbitrary bytes (the raw line, the
  label map, the strings on the wire) is a `GoString`, a list of bytes, and
  `len` is its length; names and messages that are only passed along are Lean
  strings.
* Go `int` / `int64` values are `Int`; 64-bit wrap-around is applied
  explicitly where the source can overflow.
* A finite `float64` is the rational number it denotes.
* The goroutine `run` is a state machine over the outcomes of its `select`;
  the calls it makes (`send`, `waitGroup.Done`, `ticker.Stop`) are recorded
  in a trace.
-/

namespace ZapLoki

/-! ## Data model (`zaploki.go`, `auth.go`) -/

/-- A Go string: a sequence of bytes, not necessarily valid UTF-8. -/
abbrev GoString := List UInt8

/-- The bytes of a string literal (its UTF-8 encoding). -/
def GoString.ofString (s : String) : GoString :=
  (s.data.map String.utf8EncodeChar).flatten

/-- The struct `logEntry`. `Timestamp` is the exact value of the `float64`
field. `timestamp` holds what `sink.Write` stores with
`entry.timestamp = time.Now()` (Unix nanoseconds), `none` when never set. -/
structure logEntry where
  Level : String
  Timestamp : ℚ
  Message : String
  Caller : String
  raw : GoString
  timestamp : Option Int
deriving DecidableEq

/-- The two implementations of the interface `Authenticator` in `auth.go`. -/
inductive Authenticator where
  | BasicAuthenticator (Username Password : String)
  | APIKeyAuthenticator (KeyName APIKey : String)
deriving DecidableEq

/-- Modelled from the spec: the struct `Config` (its declaration is not among
the sources); fields as in the configuration surface of the spec, section 6,
and as used by `New`, `run` and `send`. `Labels` is a `map[string]string`:
`none` for the nil map, else its key-value pairs (keys distinct);
`BatchMaxWait` is a `time.Duration` in nanoseconds, `Auth` is `nil` or an
authenticator. -/
structure Config where
  Url : String
  Labels : Option (List (GoString × GoString))
  BatchMaxSize : Int
  BatchMaxWait : Int
  Auth : Option Authenticator

/-! ## The worker `lokiPusher.run` -/

/-- Outcome of one round of the `select` in `run`: which case fired. -/
inductive Event where
  | ctxDone
  | quit
  | entry (e : logEntry)
  | tick
deriving DecidableEq

/-- Calls made by `run` that are visible outside the goroutine. -/
inductive Effect where
  | send (batch : List logEntry)
  | wgDone
  | tickerStop
deriving DecidableEq

/-- State of the goroutine `run`: the local slice `batch`, the calls made so
far, and whether the `for` loop is still running. -/
structure Worker where
  batch : List logEntry
  trace : List Effect
  running : Bool
deriving DecidableEq

/-- State on entry to the `for` loop: `batch := make([]logEntry, 0, ...)`. -/
def Worker.start : Worker :=
  { batch := [], trace := [], running := true }

/-- The deferred calls of `run`, executed on `return` in reverse order of
registration: first the closure (`if len(batch) > 0 { lp.send(batch) }`,
then `lp.waitGroup.Done()`), then `ticker.Stop()`. -/
def runDeferred (w : Worker) : Worker :=
  let flushed := if w.batch.length > 0 then w.trace ++ [Effect.send w.batch] else w.trace
  { batch := w.batch, trace := flushed ++ [Effect.wgDone, Effect.tickerStop], running := false }

/-- One round of the `select` of `run`. -/
def runStep (cfg : Config) (w : Worker) : Event → Worker
  | Event.ctxDone => runDeferred w
  | Event.quit => runDeferred w
  | Event.entry e =>
    let batch := w.batch ++ [e]
    if (batch.length : Int) ≥ cfg.BatchMaxSize then
      { w with trace := w.trace ++ [Effect.send batch], batch := [] }
    else
      { w with batch := batch }
  | Event.tick =>
    if w.batch.length > 0 then
      { w with trace := w.trace ++ [Effect.send w.batch], batch := [] }
    else
      w

/-- The `for { select { ... } }` loop of `run` from state `w`: events are
consumed until a shutdown case returns from the function. -/
def runLoop (cfg : Config) : Worker → List Event → Worker
  | w, [] => w
  | w, ev :: evs => if w.running then runLoop cfg (runStep cfg w ev) evs else w

/-- The goroutine `run` driven by a sequence of `select` outcomes. -/
def run (cfg : Config) (evs : List Event) : Worker :=
  runLoop cfg Worker.start evs

/-- The batches passed to `send`, in call order. -/
def sentBatches : List Effect → List (List logEntry)
  | [] => []
  | Effect.send b :: tr => b :: sentBatches tr
  | _ :: tr => sentBatches tr

/-- Whether the event is a shutdown signal (`ctx.Done()` or `quit`). -/
def Event.isShutdown : Event → Bool
  | Event.ctxDone => true
  | Event.quit => true
  | _ => false

/-- The entries received from the channel `entries` by a worker that is
offered the events `evs`: those before the first shutdown signal. -/
def dequeued : List Event → List logEntry
  | [] => []
  | Event.entry e :: evs => e :: dequeued evs
  | Event.tick :: evs => dequeued evs
  | Event.ctxDone :: _ => []
  | Event.quit :: _ => []

/-- The events of dequeuing the entries `es` one after the other. -/
def entryEvents (es : List logEntry) : List Event :=
  es.map Event.entry

/-- Invariant of the loop: the pending batch is below the threshold and every
batch sent so far has between one and `BatchMaxSize` entries. -/
def Worker.Bounded (cfg : Config) (w : Worker) : Prop :=
  ((w.batch.length : Int) < cfg.BatchMaxSize) ∧
    ∀ b, Effect.send b ∈ w.trace → 1 ≤ b.length ∧ (b.length : Int) ≤ cfg.BatchMaxSize

/-- Entries accounted for by a worker: those already sent and, while the loop
is running, those pending in `batch`. -/
def Worker.held (w : Worker) : List logEntry :=
  (sentBatches w.trace).flatten ++ (if w.running then w.batch else [])

/-! ## Wire format (`formatLogEntries`) -/

/-- Truncation toward zero of the value of a finite `float64`. -/
def truncFloat64 (x : ℚ) : Int :=
  Int.tdiv x.num x.den

/-- Reduction of an integer to the `int64` with the same low 64 bits
(two's-complement wrap-around of Go's `int64` arithmetic). -/
def wrapInt64 (n : Int) : Int :=
  (n + 2 ^ 63) % 2 ^ 64 - 2 ^ 63

/-- The conversion `int64(f)` of a finite `float64`: the truncated value when
it is representable; otherwise the result is implementation-dependent (the
Go specification), and the value produced on amd64, the least `int64`, is
taken. -/
def int64OfFloat64 (x : ℚ) : Int :=
  let t := truncFloat64 x
  if -(2 ^ 63) ≤ t ∧ t < 2 ^ 63 then t else -(2 ^ 63)

/-- The value of `time.Unix(sec, 0).UnixNano()`: `sec * 1e9` in `int64`
arithmetic. -/
def UnixNano (sec : Int) : Int :=
  wrapInt64 (sec * 1000000000)

/-- The call `strconv.FormatInt(n, 10)`. -/
def FormatInt10 (n : Int) : String :=
  if n < 0 then "-" ++ Nat.repr n.natAbs else Nat.repr n.natAbs

/-- The function `formatLogEntries`: one `[2]string` per entry, in order. -/
def formatLogEntries (entries : List logEntry) : List (GoString × GoString) :=
  entries.map fun entry =>
    (GoString.ofString (FormatInt10 (UnixNano (int64OfFloat64 entry.Timestamp))), entry.raw)

/-! ## Ingestion: the channel `entries`, `Hook` and `sink.Write` -/

/-- Buffer size of the channel, `make(chan logEntry, 100)` in `New`. -/
def entriesCap : Nat := 100

/-- The send `lp.entries <- e` on the buffered channel holding `entries`:
the new buffer, or `none` when the buffer is full and the sender blocks. -/
def chanSend (entries : List logEntry) (e : logEntry) : Option (List logEntry) :=
  if entries.length < entriesCap then some (entries ++ [e]) else none

/-- Outcome of a call that sends on the channel: it returns `result` leaving
the channel buffer `entries`, or it is blocked in the send. -/
inductive Call (α : Type) where
  | returned (result : α) (entries : List logEntry)
  | blocked
deriving DecidableEq

/-- What `Hook` reads of a `zapcore.Entry`: `e.Level.String()`,
`e.Time.UnixMilli()`, `e.Message` and `e.Caller.TrimmedPath()`. -/
structure zapcoreEntry where
  LevelString : String
  TimeUnixMilli : Int
  Message : String
  CallerTrimmedPath : String
deriving DecidableEq

/-- Number of binary digits of `n` (at most `fuel`). -/
def bitLen : Nat → Nat → Nat
  | 0, _ => 0
  | fuel + 1, n => if n = 0 then 0 else bitLen fuel (n / 2) + 1

/-- Rounding of a natural number below `2 ^ 64` to 53 significant bits, ties
to even. -/
def roundNat53 (n : Nat) : Nat :=
  let shift := bitLen 64 n - 53
  let q := n / 2 ^ shift
  let r := n % 2 ^ shift
  if 2 * r > 2 ^ shift ∨ (2 * r = 2 ^ shift ∧ q % 2 = 1) then (q + 1) * 2 ^ shift
  else q * 2 ^ shift

/-- The conversion `float64(n)` of an `int64`. -/
def float64OfInt64 (n : Int) : ℚ :=
  if n < 0 then -((roundNat53 n.natAbs : Nat) : ℚ) else ((roundNat53 n.natAbs : Nat) : ℚ)

/-- The composite literal that `Hook` sends on the channel. -/
def hookEntry (e : zapcoreEntry) : logEntry :=
  { Level := e.LevelString
    Timestamp := float64OfInt64 e.TimeUnixMilli
    Message := e.Message
    Caller := e.CallerTrimmedPath
    raw := []
    timestamp := none }

/-- The method `lokiPusher.Hook`; the result is the returned `error`. -/
def Hook (entries : List logEntry) (e : zapcoreEntry) : Call (Option String) :=
  match chanSend entries (hookEntry e) with
  | some entries' => Call.returned none entries'
  | none => Call.blocked

/-- The zero value `var entry logEntry`. -/
def logEntry.zero : logEntry :=
  { Level := "", Timestamp := 0, Message := "", Caller := "", raw := [], timestamp := none }

/-- The method `sink.Write`. `Unmarshal p entry` stands for
`json.Unmarshal(p, &entry)`: the error, or the entry with the fields found in
`p` filled in; `now` is the value of `time.Now()`. The result is the pair
`(int, error)`. -/
def sink.Write (Unmarshal : GoString → logEntry → Except String logEntry) (now : Int)
    (entries : List logEntry) (p : GoString) : Call (Nat × Option String) :=
  match Unmarshal p logEntry.zero with
  | Except.error err => Call.returned (0, some err) entries
  | Except.ok entry =>
    let entry := { entry with raw := p, timestamp := some now }
    match chanSend entries entry with
    | some entries' => Call.returned (p.length, none) entries'
    | none => Call.blocked

/-! ## HTTP request construction (`send`, `auth.go`) -/

/-- UTF-8 bytes of a string. -/
def utf8Bytes (s : String) : List Nat :=
  (s.data.map fun c => (String.utf8EncodeChar c).map UInt8.toNat).flatten

/-- Alphabet of `base64.StdEncoding` (RFC 4648). -/
def encodeStd : List Char :=
  "ABCDEFGHIJKLMNOPQRSTUVWXYZabcdefghijklmnopqrstuvwxyz0123456789+/".data

/-- The base64 digit of a 6-bit value. -/
def encodeStdChar (n : Nat) : Char :=
  encodeStd.getD n '='

/-- Standard base64 with padding, three bytes to four digits. -/
def base64Groups : List Nat → List Char
  | b0 :: b1 :: b2 :: rest =>
    encodeStdChar (b0 / 4) :: encodeStdChar (b0 % 4 * 16 + b1 / 16) ::
      encodeStdChar (b1 % 16 * 4 + b2 / 64) :: encodeStdChar (b2 % 64) :: base64Groups rest
  | [b0, b1] =>
    [encodeStdChar (b0 / 4), encodeStdChar (b0 % 4 * 16 + b1 / 16),
      encodeStdChar (b1 % 16 * 4), '=']
  | [b0] => [encodeStdChar (b0 / 4), encodeStdChar (b0 % 4 * 16), '=', '=']
  | [] => []

/-- The call `base64.StdEncoding.EncodeToString([]byte(s))`. -/
def EncodeToString (s : String) : String :=
  String.mk (base64Groups (utf8Bytes s))

/-- Bytes allowed in a header field name (RFC 7230 token characters). -/
def validHeaderFieldByte (c : Char) : Bool :=
  c.isAlphanum || "!#$%&'*+-.^_`|~".data.contains c

/-- Canonical letter case: upper case at the start and after a hyphen, lower
case elsewhere. -/
def canonicalChars : Bool → List Char → List Char
  | _, [] => []
  | upper, c :: cs =>
    let c' :=
      if upper && c.isLower then c.toUpper
      else if !upper && c.isUpper then c.toLower
      else c
    c' :: canonicalChars (c' == '-') cs

/-- The function `textproto.CanonicalMIMEHeaderKey` used by `http.Header`:
a key made of token characters is put in canonical letter case, any other key
is returned unchanged. -/
def CanonicalMIMEHeaderKey (s : String) : String :=
  if s.data.all validHeaderFieldByte then String.mk (canonicalChars true s.data) else s

/-- The type `http.Header`, a `map[string][]string`, as an association list
with distinct keys. -/
abbrev Header := List (String × List String)

/-- The method `http.Header.Set`: the values of the canonical key are replaced
by the single value. -/
def Header.Set (h : Header) (key value : String) : Header :=
  (CanonicalMIMEHeaderKey key, [value]) ::
    h.filter (fun kv => decide (kv.1 ≠ CanonicalMIMEHeaderKey key))

/-- The method `http.Header.Get`: the first value of the canonical key, or
the empty string. -/
def Header.Get (h : Header) (key : String) : String :=
  match h.find? (fun kv => decide (kv.1 = CanonicalMIMEHeaderKey key)) with
  | some (_, v :: _) => v
  | _ => ""

/-- An `http.Request` as built by `send`: method, URL, header and body. -/
structure Request (Z : Type) where
  Method : String
  URL : String
  Header : Header
  Body : Z

/-- The method `http.Request.SetBasicAuth`. -/
def Request.SetBasicAuth {Z : Type} (req : Request Z) (username password : String) :
    Request Z :=
  { req with
    Header := req.Header.Set "Authorization"
      ("Basic " ++ EncodeToString (username ++ ":" ++ password)) }

/-- The methods `BasicAuthenticator.Apply` and `APIKeyAuthenticator.Apply`. -/
def Authenticator.Apply {Z : Type} : Authenticator → Request Z → Request Z
  | Authenticator.BasicAuthenticator Username Password, req =>
    req.SetBasicAuth Username Password
  | Authenticator.APIKeyAuthenticator KeyName APIKey, req =>
    { req with Header := req.Header.Set KeyName APIKey }

/-- The struct `stream`: the label map (`none` for the nil map, else its
key-value pairs) and the `[2]string` values. -/
structure stream where
  Stream : Option (List (GoString × GoString))
  Values : List (GoString × GoString)

/-- The struct `lokiPushRequest`. -/
structure lokiPushRequest where
  Streams : List stream

/-- The library operations around `send`, with `W` the JSON text, `G` a gzip
writer holding written data and `Z` the compressed bytes: `json.Marshal`,
`gzip.Writer.Write` and `Close`, the checks of `http.NewRequest`,
`http.Client.Do` (status code and status text), and on the receiving end
`gzip.NewReader` with `ReadFrom`, and `json.Unmarshal`. -/
structure Lib (W G Z : Type) where
  Marshal : lokiPushRequest → Except String W
  gzipWrite : W → Except String G
  gzipClose : G → Except String Z
  NewRequest : String → String → Except String Unit
  Do : Request Z → Except String (Nat × String)
  gzipRead : Z → Except String W
  Unmarshal : W → Except String lokiPushRequest

/-- The part of `send` that builds the request handed to `lp.client.Do`, or
returns an error before that. -/
def sendRequest {W G Z : Type} (lib : Lib W G Z) (cfg : Config) (batch : List logEntry) :
    Except String (Request Z) :=
  let data : lokiPushRequest :=
    { Streams := [{ Stream := cfg.Labels, Values := formatLogEntries batch }] }
  match lib.Marshal data with
  | Except.error err => Except.error ("failed to marshal json: " ++ err)
  | Except.ok msg =>
    match lib.gzipWrite msg with
    | Except.error err => Except.error ("failed to gzip json: " ++ err)
    | Except.ok g =>
      match lib.gzipClose g with
      | Except.error err => Except.error ("failed to close gzip writer: " ++ err)
      | Except.ok buf =>
        match lib.NewRequest "POST" cfg.Url with
        | Except.error err => Except.error ("failed to create request: " ++ err)
        | Except.ok _ =>
          let req : Request Z := { Method := "POST", URL := cfg.Url, Header := [], Body := buf }
          let req := { req with Header := req.Header.Set "Content-Type" "application/json" }
          let req := { req with Header := req.Header.Set "Content-Encoding" "gzip" }
          match cfg.Auth with
          | some auth => Except.ok (auth.Apply req)
          | none => Except.ok req

/-- The method `lokiPusher.send`; the result is the returned `error`. -/
def send {W G Z : Type} (lib : Lib W G Z) (cfg : Config) (batch : List logEntry) :
    Option String :=
  match sendRequest lib cfg batch with
  | Except.error err => some err
  | Except.ok req =>
    match lib.Do req with
    | Except.error err => some ("failed to send request: " ++ err)
    | Except.ok (StatusCode, Status) =>
      if StatusCode ≠ 204 then
        some ("recieved unexpected response code from Loki: " ++ Status)
      else none

/-- The receiving end, as in `mockRequestTestServer`: gunzip the body, then
`json.Unmarshal` into a `lokiPushRequest`. -/
def mockRequestTestServer {W G Z : Type} (lib : Lib W G Z) (body : Z) :
    Except String lokiPushRequest :=
  match lib.gzipRead body with
  | Except.error err => Except.error err
  | Except.ok buf => lib.Unmarshal buf

/-! ## `unicode/utf8` -/

/-- The rune `utf8.RuneError`, U+FFFD. -/
def RuneError : Nat := 0xFFFD

/-- Whether the byte is a UTF-8 continuation byte, `0x80` to `0xBF`. -/
def isCont (b : UInt8) : Bool :=
  decide (0x80 ≤ b.toNat) && decide (b.toNat ≤ 0xBF)

/-- The function `utf8.DecodeRune`: the first rune of `p` and its width in
bytes; `(RuneError, 0)` for the empty input and `(RuneError, 1)` for an
encoding that is invalid (a stray or missing continuation byte, an overlong
form, a surrogate, a value above U+10FFFF). -/
def DecodeRune : List UInt8 → Nat × Nat
  | [] => (RuneError, 0)
  | b0 :: rest =>
    if b0.toNat < 0x80 then (b0.toNat, 1)
    else if b0.toNat < 0xC2 then (RuneError, 1)
    else if b0.toNat < 0xE0 then
      match rest with
      | b1 :: _ =>
        if isCont b1 then ((b0.toNat - 0xC0) * 64 + (b1.toNat - 0x80), 2) else (RuneError, 1)
      | [] => (RuneError, 1)
    else if b0.toNat < 0xF0 then
      match rest with
      | b1 :: b2 :: _ =>
        if decide ((if b0.toNat = 0xE0 then 0xA0 else 0x80) ≤ b1.toNat) &&
            decide (b1.toNat ≤ (if b0.toNat = 0xED then 0x9F else 0xBF)) && isCont b2 then
          ((b0.toNat - 0xE0) * 4096 + (b1.toNat - 0x80) * 64 + (b2.toNat - 0x80), 3)
        else (RuneError, 1)
      | _ => (RuneError, 1)
    else if b0.toNat < 0xF5 then
      match rest with
      | b1 :: b2 :: b3 :: _ =>
        if decide ((if b0.toNat = 0xF0 then 0x90 else 0x80) ≤ b1.toNat) &&
            decide (b1.toNat ≤ (if b0.toNat = 0xF4 then 0x8F else 0xBF)) && isCont b2 &&
            isCont b3 then
          ((b0.toNat - 0xF0) * 262144 + (b1.toNat - 0x80) * 4096 + (b2.toNat - 0x80) * 64 +
            (b3.toNat - 0x80), 4)
        else (RuneError, 1)
      | _ => (RuneError, 1)
    else (RuneError, 1)

/-- The function `utf8.AppendRune` on the empty slice (`utf8.EncodeRune`): the
UTF-8 encoding of the rune, that of U+FFFD for a surrogate or a value out of
range. -/
def EncodeRune (r : Nat) : List UInt8 :=
  if r ≤ 0x7F then [UInt8.ofNat r]
  else if r ≤ 0x7FF then [UInt8.ofNat (0xC0 + r / 64), UInt8.ofNat (0x80 + r % 64)]
  else if 0x10FFFF < r ∨ (0xD800 ≤ r ∧ r ≤ 0xDFFF) then [0xEF, 0xBF, 0xBD]
  else if r ≤ 0xFFFF then
    [UInt8.ofNat (0xE0 + r / 4096), UInt8.ofNat (0x80 + r / 64 % 64), UInt8.ofNat (0x80 + r % 64)]
  else
    [UInt8.ofNat (0xF0 + r / 262144), UInt8.ofNat (0x80 + r / 4096 % 64),
      UInt8.ofNat (0x80 + r / 64 % 64), UInt8.ofNat (0x80 + r % 64)]

/-- The loop of `utf8.Valid`, with the input length as fuel. -/
def validLoop : Nat → List UInt8 → Bool
  | 0, s => s.isEmpty
  | _ + 1, [] => true
  | fuel + 1, b :: rest =>
    if (DecodeRune (b :: rest)).1 = RuneError ∧ (DecodeRune (b :: rest)).2 = 1 then false
    else validLoop fuel ((b :: rest).drop (DecodeRune (b :: rest)).2)

/-- The function `utf8.Valid`: whether the bytes are entirely valid UTF-8. -/
def Valid (s : GoString) : Bool :=
  validLoop s.length s

/-! ## `encoding/json`: encoding -/

/-- The digit `hex[n]` of the table `"0123456789abcdef"`. -/
def hexDigit (n : Nat) : UInt8 :=
  if n < 10 then UInt8.ofNat (0x30 + n) else UInt8.ofNat (0x61 + (n - 10))

/-- The table `htmlSafeSet`: ASCII bytes written as they are inside a JSON
string, all from the space on except `"`, `&`, `<`, `>` and `\`. -/
def htmlSafe (b : UInt8) : Bool :=
  decide (0x20 ≤ b.toNat) && decide (b.toNat < 0x80) && decide (b.toNat ≠ 0x22) &&
    decide (b.toNat ≠ 0x26) && decide (b.toNat ≠ 0x3C) && decide (b.toNat ≠ 0x3E) &&
    decide (b.toNat ≠ 0x5C)

/-- What `appendString` writes for an ASCII byte (HTML escaping on, as
`json.Marshal` sets it). -/
def escapeByte (b : UInt8) : List UInt8 :=
  if htmlSafe b then [b]
  else if b.toNat = 0x5C ∨ b.toNat = 0x22 then [0x5C, b]
  else if b.toNat = 0x08 then [0x5C, 0x62]
  else if b.toNat = 0x0C then [0x5C, 0x66]
  else if b.toNat = 0x0A then [0x5C, 0x6E]
  else if b.toNat = 0x0D then [0x5C, 0x72]
  else if b.toNat = 0x09 then [0x5C, 0x74]
  else [0x5C, 0x75, 0x30, 0x30, hexDigit (b.toNat / 16), hexDigit (b.toNat % 16)]

/-- The loop of `appendString` between the quotes, with the input length as
fuel: an ASCII byte is written by `escapeByte`, an invalid byte as the escape
of U+FFFD, the runes U+2028 and U+2029 as their escapes, and any other rune
is copied. -/
def appendStringBody : Nat → List UInt8 → List UInt8
  | 0, _ => []
  | _ + 1, [] => []
  | fuel + 1, b :: rest =>
    if b.toNat < 0x80 then escapeByte b ++ appendStringBody fuel rest
    else if (DecodeRune (b :: rest)).1 = RuneError ∧ (DecodeRune (b :: rest)).2 = 1 then
      [0x5C, 0x75, 0x66, 0x66, 0x66, 0x64] ++ appendStringBody fuel rest
    else if (DecodeRune (b :: rest)).1 = 0x2028 ∨ (DecodeRune (b :: rest)).1 = 0x2029 then
      [0x5C, 0x75, 0x32, 0x30, 0x32, hexDigit ((DecodeRune (b :: rest)).1 % 16)] ++
        appendStringBody fuel ((b :: rest).drop (DecodeRune (b :: rest)).2)
    else
      (b :: rest).take (DecodeRune (b :: rest)).2 ++
        appendStringBody fuel ((b :: rest).drop (DecodeRune (b :: rest)).2)

/-- The function `appendString` of `encoding/json`: the JSON string literal
of a Go string. -/
def appendString (s : GoString) : List UInt8 :=
  0x22 :: (appendStringBody s.length s ++ [0x22])

/-- The encodings `xs`, separated by commas. -/
def joinComma : List (List UInt8) → List UInt8
  | [] => []
  | [x] => x
  | x :: y :: xs => x ++ 0x2C :: joinComma (y :: xs)

/-- Byte-wise comparison of strings, the order in which `json.Marshal` writes
the keys of a map. -/
def GoString.le : GoString → GoString → Bool
  | [], _ => true
  | _ :: _, [] => false
  | a :: as, b :: bs => decide (a.toNat < b.toNat) || (decide (a.toNat = b.toNat) && GoString.le as bs)

/-- The entries of a map in the order of their keys. -/
def sortKeys (m : List (GoString × GoString)) : List (GoString × GoString) :=
  m.insertionSort (fun a b => GoString.le a.1 b.1 = true)

/-- Encoding of a `map[string]string`: `null` for the nil map, else an object
with the keys in sorted order. -/
def encodeMap : Option (List (GoString × GoString)) → List UInt8
  | none => [0x6E, 0x75, 0x6C, 0x6C]
  | some m =>
    0x7B :: (joinComma ((sortKeys m).map fun kv => appendString kv.1 ++ 0x3A :: appendString kv.2)
      ++ [0x7D])

/-- Encoding of a `[2]string`. -/
def encodePair (v : GoString × GoString) : List UInt8 :=
  0x5B :: (appendString v.1 ++ 0x2C :: (appendString v.2 ++ [0x5D]))

/-- Encoding of a non-nil slice with the given encoding of its elements. -/
def encodeSlice {α : Type} (enc : α → List UInt8) (xs : List α) : List UInt8 :=
  0x5B :: (joinComma (xs.map enc) ++ [0x5D])

/-- Encoding of the struct `stream`:
`{"stream":<map>,"values":<slice>}`. -/
def encodeStream (s : stream) : List UInt8 :=
  0x7B :: (appendString (GoString.ofString "stream") ++ 0x3A :: (encodeMap s.Stream ++
    0x2C :: (appendString (GoString.ofString "values") ++ 0x3A ::
      (encodeSlice encodePair s.Values ++ [0x7D]))))

/-- The function `json.Marshal` on a `lokiPushRequest` whose slices are not
nil, as `send` builds it: `{"streams":[...]}`. -/
def Marshal (d : lokiPushRequest) : List UInt8 :=
  0x7B :: (appendString (GoString.ofString "streams") ++ 0x3A ::
    (encodeSlice encodeStream d.Streams ++ [0x7D]))

/-! ## `encoding/json`: decoding -/

/-- JSON white space: space, tab, line feed, carriage return. -/
def isSpace (c : UInt8) : Bool :=
  decide (c.toNat = 0x20) || decide (c.toNat = 0x09) || decide (c.toNat = 0x0A) ||
    decide (c.toNat = 0x0D)

/-- The input without its leading white space. -/
def skipSpace : List UInt8 → List UInt8
  | [] => []
  | c :: s => if isSpace c then skipSpace s else c :: s

/-- Value of a hexadecimal digit. -/
def hexVal (c : UInt8) : Option Nat :=
  if 0x30 ≤ c.toNat ∧ c.toNat ≤ 0x39 then some (c.toNat - 0x30)
  else if 0x61 ≤ c.toNat ∧ c.toNat ≤ 0x66 then some (c.toNat - 0x61 + 10)
  else if 0x41 ≤ c.toNat ∧ c.toNat ≤ 0x46 then some (c.toNat - 0x41 + 10)
  else none

/-- The function `getu4`: the value of a leading `\uXXXX`, if there is one. -/
def getu4 : List UInt8 → Option Nat
  | c0 :: c1 :: a :: b :: c :: d :: _ =>
    if c0.toNat = 0x5C ∧ c1.toNat = 0x75 then
      match hexVal a, hexVal b, hexVal c, hexVal d with
      | some x, some y, some z, some w => some (((x * 16 + y) * 16 + z) * 16 + w)
      | _, _, _, _ => none
    else none
  | _ => none

/-- The function `utf16.DecodeRune` on a first code unit that is a surrogate
and the value of the escape that follows it, if any. -/
def utf16DecodeRune (r1 : Nat) (r2 : Option Nat) : Nat :=
  match r2 with
  | some r2 =>
    if 0xD800 ≤ r1 ∧ r1 < 0xDC00 ∧ 0xDC00 ≤ r2 ∧ r2 < 0xE000 then
      (r1 - 0xD800) * 1024 + (r2 - 0xDC00) + 0x10000
    else RuneError
  | none => RuneError

/-- The function `unquoteBytes` on the text that follows an opening quote,
with the input length as fuel: the bytes of the string literal, `acc` in
front, and the text after the closing quote; `none` for a literal that is not
valid. Escapes are replaced, and runes are decoded and encoded again, which
turns an invalid byte into U+FFFD. -/
def unquoteBody : Nat → List UInt8 → List UInt8 → Option (GoString × List UInt8)
  | 0, _, _ => none
  | _ + 1, [], _ => none
  | fuel + 1, c :: s, acc =>
    if c.toNat = 0x22 then some (acc, s)
    else if c.toNat = 0x5C then
      match s with
      | [] => none
      | e :: s' =>
        if e.toNat = 0x22 ∨ e.toNat = 0x5C ∨ e.toNat = 0x2F then unquoteBody fuel s' (acc ++ [e])
        else if e.toNat = 0x62 then unquoteBody fuel s' (acc ++ [0x08])
        else if e.toNat = 0x66 then unquoteBody fuel s' (acc ++ [0x0C])
        else if e.toNat = 0x6E then unquoteBody fuel s' (acc ++ [0x0A])
        else if e.toNat = 0x72 then unquoteBody fuel s' (acc ++ [0x0D])
        else if e.toNat = 0x74 then unquoteBody fuel s' (acc ++ [0x09])
        else if e.toNat = 0x75 then
          match getu4 (c :: s) with
          | none => none
          | some rr =>
            if 0xD800 ≤ rr ∧ rr < 0xE000 then
              if utf16DecodeRune rr (getu4 (s'.drop 4)) ≠ RuneError then
                unquoteBody fuel (s'.drop 10)
                  (acc ++ EncodeRune (utf16DecodeRune rr (getu4 (s'.drop 4))))
              else unquoteBody fuel (s'.drop 4) (acc ++ EncodeRune RuneError)
            else unquoteBody fuel (s'.drop 4) (acc ++ EncodeRune rr)
        else none
    else if c.toNat < 0x20 then none
    else if c.toNat < 0x80 then unquoteBody fuel s (acc ++ [c])
    else
      unquoteBody fuel ((c :: s).drop (DecodeRune (c :: s)).2)
        (acc ++ EncodeRune (DecodeRune (c :: s)).1)

/-- A string literal after its opening quote: its bytes and the rest. -/
def unquote (s : List UInt8) : Option (GoString × List UInt8) :=
  unquoteBody s.length s []

/-- The input after a leading `null`, if it starts with one. -/
def afterNull : List UInt8 → Option (List UInt8)
  | a :: b :: c :: d :: s =>
    if a.toNat = 0x6E ∧ b.toNat = 0x75 ∧ c.toNat = 0x6C ∧ d.toNat = 0x6C then some s else none
  | _ => none

/-- The input after the digits it starts with. -/
def skipDigits : List UInt8 → List UInt8
  | [] => []
  | c :: s => if 0x30 ≤ c.toNat ∧ c.toNat ≤ 0x39 then skipDigits s else c :: s

/-- The input after an exponent part, if any (`e` or `E`, a sign, digits). -/
def skipExponent : List UInt8 → Option (List UInt8)
  | [] => some []
  | c :: s =>
    if c.toNat = 0x65 ∨ c.toNat = 0x45 then
      match s with
      | d :: s' =>
        if 0x30 ≤ d.toNat ∧ d.toNat ≤ 0x39 then some (skipDigits s')
        else if d.toNat = 0x2B ∨ d.toNat = 0x2D then
          match s' with
          | d' :: s'' => if 0x30 ≤ d'.toNat ∧ d'.toNat ≤ 0x39 then some (skipDigits s'') else none
          | [] => none
        else none
      | [] => none
    else some (c :: s)

/-- The input after a fraction part, if any, and an exponent part, if any. -/
def skipFraction : List UInt8 → Option (List UInt8)
  | [] => some []
  | c :: s =>
    if c.toNat = 0x2E then
      match s with
      | d :: s' => if 0x30 ≤ d.toNat ∧ d.toNat ≤ 0x39 then skipExponent (skipDigits s') else none
      | [] => none
    else skipExponent (c :: s)

/-- The input after the digits of a number that has no sign. -/
def skipUnsigned : List UInt8 → Option (List UInt8)
  | [] => none
  | c :: s =>
    if c.toNat = 0x30 then skipFraction s
    else if 0x31 ≤ c.toNat ∧ c.toNat ≤ 0x39 then skipFraction (skipDigits s)
    else none

/-- The input after a JSON number. -/
def skipNumber : List UInt8 → Option (List UInt8)
  | [] => none
  | c :: s => if c.toNat = 0x2D then skipUnsigned s else skipUnsigned (c :: s)

/-- The input after a leading `true`, `false` or `null`. -/
def skipLiteral : List UInt8 → Option (List UInt8)
  | a :: b :: c :: d :: s =>
    if a.toNat = 0x74 ∧ b.toNat = 0x72 ∧ c.toNat = 0x75 ∧ d.toNat = 0x65 then some s
    else if a.toNat = 0x6E ∧ b.toNat = 0x75 ∧ c.toNat = 0x6C ∧ d.toNat = 0x6C then some s
    else if a.toNat = 0x66 ∧ b.toNat = 0x61 ∧ c.toNat = 0x6C ∧ d.toNat = 0x73 then
      match s with
      | e :: s' => if e.toNat = 0x65 then some s' else none
      | [] => none
    else none
  | _ => none

/-- Where the scanner stands while a value is skipped. -/
inductive SkipState where
  | value
  | valueOrClose
  | key
  | keyOrClose
  | colon
  | after
deriving DecidableEq

/-- Skipping of one JSON value of any kind, as the decoder does for an object
key it has no field for and for an array element beyond the length of the
array: `stack` holds the open containers (`true` for an object), `fuel` is
the input length. -/
def skipLoop : Nat → List Bool → SkipState → List UInt8 → Option (List UInt8)
  | 0, _, _, _ => none
  | fuel + 1, stack, st, s =>
    match skipSpace s with
    | [] => none
    | c :: t =>
      match st with
      | SkipState.after =>
        match stack with
        | [] => some (c :: t)
        | true :: stack' =>
          if c.toNat = 0x2C then skipLoop fuel stack SkipState.key t
          else if c.toNat = 0x7D then
            (if stack' = [] then some t else skipLoop fuel stack' SkipState.after t)
          else none
        | false :: stack' =>
          if c.toNat = 0x2C then skipLoop fuel stack SkipState.value t
          else if c.toNat = 0x5D then
            (if stack' = [] then some t else skipLoop fuel stack' SkipState.after t)
          else none
      | SkipState.colon =>
        if c.toNat = 0x3A then skipLoop fuel stack SkipState.value t else none
      | SkipState.key =>
        if c.toNat = 0x22 then
          match unquote t with
          | some (_, t') => skipLoop fuel stack SkipState.colon t'
          | none => none
        else none
      | SkipState.keyOrClose =>
        if c.toNat = 0x7D then
          match stack with
          | _ :: [] => some t
          | _ :: stack' => skipLoop fuel stack' SkipState.after t
          | [] => none
        else if c.toNat = 0x22 then
          match unquote t with
          | some (_, t') => skipLoop fuel stack SkipState.colon t'
          | none => none
        else none
      | SkipState.valueOrClose =>
        if c.toNat = 0x5D then
          match stack with
          | _ :: [] => some t
          | _ :: stack' => skipLoop fuel stack' SkipState.after t
          | [] => none
        else skipLoop fuel stack SkipState.value (c :: t)
      | SkipState.value =>
        if c.toNat = 0x7B then skipLoop fuel (true :: stack) SkipState.keyOrClose t
        else if c.toNat = 0x5B then skipLoop fuel (false :: stack) SkipState.valueOrClose t
        else
          match (if c.toNat = 0x22 then (unquote t).map Prod.snd
            else if c.toNat = 0x2D ∨ (0x30 ≤ c.toNat ∧ c.toNat ≤ 0x39) then skipNumber (c :: t)
            else skipLiteral (c :: t)) with
          | none => none
          | some t' => if stack = [] then some t' else skipLoop fuel stack SkipState.after t'

/-- The input after one JSON value. -/
def skipValue (s : List UInt8) : Option (List UInt8) :=
  skipLoop (2 * s.length + 2) [] SkipState.value s

/-- Decoding of a JSON value into a Go `string` that holds `old`: a string
literal gives its bytes, `null` leaves the string as it is, anything else is
an error. -/
def decodeString (old : GoString) (s : List UInt8) : Option (GoString × List UInt8) :=
  match skipSpace s with
  | [] => none
  | c :: t =>
    if c.toNat = 0x22 then unquote t
    else (afterNull (c :: t)).map fun t' => (old, t')

/-- The elements of a JSON array from element `i` on, each decoded by `elem`,
up to the closing bracket; `fuel` is the input length. -/
def decodeElems {α : Type} (elem : Nat → List UInt8 → Option (α × List UInt8)) :
    Nat → Nat → List α → List UInt8 → Option (List α × List UInt8)
  | 0, _, _, _ => none
  | fuel + 1, i, acc, s =>
    match elem i s with
    | none => none
    | some (a, s1) =>
      match skipSpace s1 with
      | [] => none
      | c :: s2 =>
        if c.toNat = 0x2C then decodeElems elem fuel (i + 1) (acc ++ [a]) s2
        else if c.toNat = 0x5D then some (acc ++ [a], s2)
        else none

/-- Decoding of a JSON array with the elements decoded by `elem`: the
elements, or `none` for `null` (which leaves the target as it is). -/
def decodeArray {α : Type} (elem : Nat → List UInt8 → Option (α × List UInt8))
    (s : List UInt8) : Option (Option (List α) × List UInt8) :=
  match skipSpace s with
  | [] => none
  | c :: t =>
    if c.toNat = 0x5B then
      match skipSpace t with
      | [] => none
      | c' :: t' =>
        if c'.toNat = 0x5D then some (some [], t')
        else (decodeElems elem t.length 0 [] t).map fun r => (some r.1, r.2)
    else (afterNull (c :: t)).map fun t' => (none, t')

/-- Element `i` of a JSON array decoded into a `[2]string`: a string for the
first two, skipped beyond them. -/
def pairElem (i : Nat) (s : List UInt8) : Option (Option GoString × List UInt8) :=
  if i < 2 then (decodeString [] s).map fun r => (some r.1, r.2)
  else (skipValue s).map fun t => (none, t)

/-- Decoding of a JSON value into a zero `[2]string`: the first two elements
of the array, the empty string for a missing one. -/
def decodePair (s : List UInt8) : Option ((GoString × GoString) × List UInt8) :=
  match decodeArray pairElem s with
  | none => none
  | some (none, t) => some (([], []), t)
  | some (some xs, t) => some (((xs.getD 0 none).getD [], (xs.getD 1 none).getD []), t)

/-- The members of a JSON object up to the closing brace, each value decoded
by `field` according to its key; `fuel` is the input length. -/
def decodeMembers {σ : Type} (field : GoString → σ → List UInt8 → Option (σ × List UInt8)) :
    Nat → σ → List UInt8 → Option (σ × List UInt8)
  | 0, _, _ => none
  | fuel + 1, st, s =>
    match skipSpace s with
    | [] => none
    | c :: t =>
      if c.toNat = 0x22 then
        match unquote t with
        | none => none
        | some (key, s1) =>
          match skipSpace s1 with
          | [] => none
          | c1 :: s2 =>
            if c1.toNat = 0x3A then
              match field key st s2 with
              | none => none
              | some (st', s3) =>
                match skipSpace s3 with
                | [] => none
                | c2 :: s4 =>
                  if c2.toNat = 0x2C then decodeMembers field fuel st' s4
                  else if c2.toNat = 0x7D then some (st', s4)
                  else none
            else none
      else none

/-- Decoding of a JSON object into a target in state `st`: the new state, or
`none` for `null` (which leaves the target as it is). -/
def decodeObject {σ : Type} (field : GoString → σ → List UInt8 → Option (σ × List UInt8))
    (st : σ) (s : List UInt8) : Option (Option σ × List UInt8) :=
  match skipSpace s with
  | [] => none
  | c :: t =>
    if c.toNat = 0x7B then
      match skipSpace t with
      | [] => none
      | c' :: t' =>
        if c'.toNat = 0x7D then some (some st, t')
        else (decodeMembers field t.length st t).map fun r => (some r.1, r.2)
    else (afterNull (c :: t)).map fun t' => (none, t')

/-- The assignment `m[k] = v` on the entries of a map. -/
def mapSet (m : List (GoString × GoString)) (k v : GoString) : List (GoString × GoString) :=
  if m.any (fun kv => decide (kv.1 = k)) then
    m.map fun kv => if kv.1 = k then (k, v) else kv
  else m ++ [(k, v)]

/-- Decoding of a JSON value into a `map[string]string` that holds `old`: an
object assigns each of its members to the map, made first if it is nil;
`null` leaves the map as it is. -/
def decodeMap (old : Option (List (GoString × GoString))) (s : List UInt8) :
    Option (Option (List (GoString × GoString)) × List UInt8) :=
  match decodeObject
      (fun key m s' => (decodeString [] s').map fun r => (mapSet m key r.1, r.2))
      (old.getD []) s with
  | none => none
  | some (none, t) => some (old, t)
  | some (some m, t) => some (some m, t)

/-- Lower case of an ASCII letter. -/
def asciiLower (c : UInt8) : UInt8 :=
  if 0x41 ≤ c.toNat ∧ c.toNat ≤ 0x5A then UInt8.ofNat (c.toNat + 0x20) else c

/-- Whether an object key names the struct field with the JSON name `name`
(in lower case): equal up to ASCII letter case. -/
def keyIs (key : GoString) (name : String) : Bool :=
  decide (key.map asciiLower = GoString.ofString name)

/-- Decoding of the member `key` of an object into the struct `stream`. -/
def streamField (key : GoString) (st : stream) (s : List UInt8) :
    Option (stream × List UInt8) :=
  if keyIs key "stream" then
    (decodeMap st.Stream s).map fun r => ({ st with Stream := r.1 }, r.2)
  else if keyIs key "values" then
    match decodeArray (fun _ => decodePair) s with
    | none => none
    | some (none, t) => some (st, t)
    | some (some vs, t) => some ({ st with Values := vs }, t)
  else (skipValue s).map fun t => (st, t)

/-- Decoding of a JSON value into a zero `stream`. -/
def decodeStream (s : List UInt8) : Option (stream × List UInt8) :=
  match decodeObject streamField { Stream := none, Values := [] } s with
  | none => none
  | some (none, t) => some ({ Stream := none, Values := [] }, t)
  | some (some st, t) => some (st, t)

/-- Decoding of the member `key` of an object into the struct
`lokiPushRequest`. -/
def requestField (key : GoString) (st : lokiPushRequest) (s : List UInt8) :
    Option (lokiPushRequest × List UInt8) :=
  if keyIs key "streams" then
    match decodeArray (fun _ => decodeStream) s with
    | none => none
    | some (none, t) => some (st, t)
    | some (some xs, t) => some ({ st with Streams := xs }, t)
  else (skipValue s).map fun t => (st, t)

/-- The function `json.Unmarshal` into a zero `lokiPushRequest`: the decoded
request, or an error for a text that is not a JSON value followed by white
space only, or whose values do not have the types of the fields. -/
def Unmarshal (data : List UInt8) : Except String lokiPushRequest :=
  match decodeObject requestField { Streams := [] } data with
  | none => Except.error "invalid JSON"
  | some (r, rest) =>
    if (skipSpace rest).isEmpty then Except.ok (r.getD { Streams := [] })
    else Except.error "invalid character after top-level value"

/-- The shapes of a rune that `DecodeRune` accepts at a byte that is not
ASCII. -/
inductive RuneShape : List UInt8 → Nat → Nat → Prop where
  | two (b0 b1 : UInt8) (t : List UInt8) (h0 : 0xC2 ≤ b0.toNat) (h0' : b0.toNat < 0xE0)
      (h1 : 0x80 ≤ b1.toNat) (h1' : b1.toNat ≤ 0xBF) :
      RuneShape (b0 :: b1 :: t) ((b0.toNat - 0xC0) * 64 + (b1.toNat - 0x80)) 2
  | three (b0 b1 b2 : UInt8) (t : List UInt8) (h0 : 0xE0 ≤ b0.toNat) (h0' : b0.toNat < 0xF0)
      (h1 : (if b0.toNat = 0xE0 then 0xA0 else 0x80) ≤ b1.toNat)
      (h1' : b1.toNat ≤ (if b0.toNat = 0xED then 0x9F else 0xBF))
      (h2 : 0x80 ≤ b2.toNat) (h2' : b2.toNat ≤ 0xBF) :
      RuneShape (b0 :: b1 :: b2 :: t)
        ((b0.toNat - 0xE0) * 4096 + (b1.toNat - 0x80) * 64 + (b2.toNat - 0x80)) 3
  | four (b0 b1 b2 b3 : UInt8) (t : List UInt8) (h0 : 0xF0 ≤ b0.toNat) (h0' : b0.toNat < 0xF5)
      (h1 : (if b0.toNat = 0xF0 then 0x90 else 0x80) ≤ b1.toNat)
      (h1' : b1.toNat ≤ (if b0.toNat = 0xF4 then 0x8F else 0xBF))
      (h2 : 0x80 ≤ b2.toNat) (h2' : b2.toNat ≤ 0xBF)
      (h3 : 0x80 ≤ b3.toNat) (h3' : b3.toNat ≤ 0xBF) :
      RuneShape (b0 :: b1 :: b2 :: b3 :: t)
        ((b0.toNat - 0xF0) * 262144 + (b1.toNat - 0x80) * 4096 + (b2.toNat - 0x80) * 64 +
          (b3.toNat - 0x80)) 4

/-- What decoding the encoding of the map `m` into a map that holds `old`
gives. -/
def mapInto (m old : Option (List (GoString × GoString))) :
    Option (List (GoString × GoString)) :=
  match m with
  | none => old
  | some m => some ((sortKeys m).foldl (fun st kv => mapSet st kv.1 kv.2) (old.getD []))

/-- What is read from the encoding of a stream: the stream with the entries
of its label map in the order of their keys. -/
def sortedStream (s : stream) : stream :=
  { Stream := s.Stream.map sortKeys, Values := s.Values }

/-- A stream whose strings are valid UTF-8 and whose map keys are distinct. -/
def stream.WellFormed (s : stream) : Prop :=
  (∀ l, s.Stream = some l →
    (l.map Prod.fst).Nodup ∧ ∀ kv ∈ l, Valid kv.1 = true ∧ Valid kv.2 = true) ∧
  ∀ v ∈ s.Values, Valid v.1 = true ∧ Valid v.2 = true

/-! ## The libraries with `encoding/json` as modelled -/

/-- The libraries `lib` with `encoding/json` as modelled by `Marshal` and
`Unmarshal`; gzip and HTTP stay those of `lib`. -/
def withJSON {G Z : Type} (lib : Lib GoString G Z) : Lib GoString G Z :=
  { lib with Marshal := fun d => Except.ok (Marshal d), Unmarshal := Unmarshal }

/-! ## Example values -/

/-- A log entry with the given message, raw line and timestamp. -/
def exampleEntry (msg raw : String) (ts : ℚ) : logEntry :=
  { Level := "info", Timestamp := ts, Message := msg, Caller := "main.go:10",
    raw := GoString.ofString raw, timestamp := none }

/-- The configuration of `TestNew` with the given threshold and authenticator. -/
def exampleConfig (size : Int) (auth : Option Authenticator) : Config :=
  { Url := "http://127.0.0.1:3100/loki/api/v1/push"
    Labels := some
      [(GoString.ofString "app", GoString.ofString "test"),
        (GoString.ofString "env", GoString.ofString "dev"),
        (GoString.ofString "instance", GoString.ofString "instance-1")]
    BatchMaxSize := size
    BatchMaxWait := 10000000000
    Auth := auth }

/-- A stand-in for the libraries in which a JSON text and its gzip data are
represented by the value they encode, every URL is accepted and the server
answers 204. -/
def exampleLib : Lib lokiPushRequest lokiPushRequest lokiPushRequest :=
  { Marshal := fun d => Except.ok d
    gzipWrite := fun w => Except.ok w
    gzipClose := fun g => Except.ok g
    NewRequest := fun _ _ => Except.ok ()
    Do := fun _ => Except.ok (204, "204 No Content")
    gzipRead := fun z => Except.ok z
    Unmarshal := fun w => Except.ok w }

/-- Behaviour of `json.Unmarshal` on two inputs: the empty object parses and
sets no field, the empty input is an error. -/
def exampleUnmarshal (p : GoString) (entry : logEntry) : Except String logEntry :=
  if p = GoString.ofString "\x7b\x7d" then Except.ok entry
  else Except.error "unexpected end of JSON input"

/-- A `zapcore.Entry` logged at 2023-11-14T22:13:20Z. -/
def exampleZapEntry : zapcoreEntry :=
  { LevelString := "info", TimeUnixMilli := 1700000000000, Message := "failed to fetch URL",
    CallerTrimmedPath := "zaploki/zaploki_test.go:83" }

/-- Two entries as `sink.Write` enqueues them. -/
def exampleBatch : List logEntry :=
  [exampleEntry "a" "line a" 1700000000, exampleEntry "b" "line b" 1700000001]

/-- The request that `send` builds from `exampleBatch` with `exampleLib` and
no authenticator. -/
def exampleRequest : Request lokiPushRequest :=
  { Method := "POST"
    URL := "http://127.0.0.1:3100/loki/api/v1/push"
    Header := [("Content-Encoding", ["gzip"]), ("Content-Type", ["application/json"])]
    Body :=
      { Streams :=
          [{ Stream := (exampleConfig 100 none).Labels
             Values :=
               [(GoString.ofString "1700000000000000000", GoString.ofString "line a"),
                 (GoString.ofString "1700000001000000000", GoString.ofString "line b")] }] } }

/-- A stand-in for gzip and HTTP in which compressed data are represented by
the data themselves, every URL is accepted and the server answers 204; JSON is
`encoding/json` as modelled. -/
def exampleJSONLib : Lib GoString GoString GoString :=
  withJSON
    { Marshal := fun _ => Except.error "unused"
      gzipWrite := fun w => Except.ok w
      gzipClose := fun g => Except.ok g
      NewRequest := fun _ _ => Except.ok ()
      Do := fun _ => Except.ok (204, "204 No Content")
      gzipRead := fun z => Except.ok z
      Unmarshal := fun _ => Except.error "unused" }

/-- The request that `send` builds from `exampleBatch` with `exampleJSONLib`
and no authenticator. -/
def exampleJSONRequest : Request GoString :=
  { Method := "POST"
    URL := "http://127.0.0.1:3100/loki/api/v1/push"
    Header := [("Content-Encoding", ["gzip"]), ("Content-Type", ["application/json"])]
    Body :=
      Marshal
        { Streams :=
            [{ Stream := (exampleConfig 100 none).Labels
               Values := formatLogEntries exampleBatch }] } }

/-- A line that parses as JSON and holds the byte `0xFF`, which is not valid
UTF-8: the bytes of `\x7b"msg":"` followed by `0xFF` and `"\x7d`. -/
def exampleInvalidLine : GoString :=
  [0x7B, 0x22, 0x6D, 0x73, 0x67, 0x22, 0x3A, 0x22, 0xFF, 0x22, 0x7D]

/-- The line `exampleInvalidLine` with U+FFFD (`EF BF BD`) in place of the
byte `0xFF`. -/
def exampleReplacedLine : GoString :=
  [0x7B, 0x22, 0x6D, 0x73, 0x67, 0x22, 0x3A, 0x22, 0xEF, 0xBF, 0xBD, 0x22, 0x7D]

/-- An entry as `sink.Write` enqueues it for the input `exampleInvalidLine`. -/
def exampleInvalidEntry : logEntry :=
  { Level := "", Timestamp := 1700000000, Message := "\uFFFD", Caller := "",
    raw := exampleInvalidLine, timestamp := some 0 }

/-! ## Lemmas about the worker -/

theorem bounded_start (cfg : Config) (hm : 0 < cfg.BatchMaxSize) :
    Worker.Bounded cfg Worker.start := by
  constructor
  · simpa [Worker.start] using hm
  · intro b hb
    simp [Worker.start] at hb

theorem bounded_runDeferred (cfg : Config) (w : Worker) (hw : Worker.Bounded cfg w) :
    Worker.Bounded cfg (runDeferred w) := by
  obtain ⟨hlen, htr⟩ := hw
  refine ⟨by simpa [runDeferred] using hlen, ?_⟩
  intro b hb
  have hb2 : Effect.send b ∈ w.trace ∨ (w.batch.length > 0 ∧ b = w.batch) := by
    by_cases hpos : w.batch.length > 0
    · simp only [runDeferred, hpos, if_true] at hb
      rcases List.mem_append.1 hb with hb | hb
      · rcases List.mem_append.1 hb with hb | hb
        · exact Or.inl hb
        · simp only [List.mem_singleton, Effect.send.injEq] at hb
          exact Or.inr ⟨hpos, hb⟩
      · simp at hb
    · simp only [runDeferred, hpos, if_false] at hb
      rcases List.mem_append.1 hb with hb | hb
      · exact Or.inl hb
      · simp at hb
  rcases hb2 with hb2 | ⟨hpos, hb2⟩
  · exact htr b hb2
  · subst hb2
    exact ⟨hpos, le_of_lt hlen⟩

theorem bounded_runStep (cfg : Config) (w : Worker) (ev : Event)
    (hw : Worker.Bounded cfg w) : Worker.Bounded cfg (runStep cfg w ev) := by
  cases ev with
  | ctxDone => exact bounded_runDeferred cfg w hw
  | quit => exact bounded_runDeferred cfg w hw
  | entry e =>
    obtain ⟨hlen, htr⟩ := hw
    by_cases hfull : ((w.batch ++ [e]).length : Int) ≥ cfg.BatchMaxSize
    · have hm : 0 < cfg.BatchMaxSize := lt_of_le_of_lt (Int.ofNat_nonneg _) hlen
      simp only [runStep, hfull, if_true]
      refine ⟨by simpa using hm, ?_⟩
      intro b hb
      simp only [List.mem_append, List.mem_singleton, Effect.send.injEq] at hb
      rcases hb with hb | hb
      · exact htr b hb
      · subst hb
        refine ⟨by simp, ?_⟩
        simp only [List.length_append, List.length_singleton, Nat.cast_add, Nat.cast_one]
        omega
    · simp only [runStep, hfull, if_false]
      exact ⟨lt_of_not_ge hfull, htr⟩
  | tick =>
    obtain ⟨hlen, htr⟩ := hw
    by_cases hpos : w.batch.length > 0
    · have hm : 0 < cfg.BatchMaxSize := lt_of_le_of_lt (Int.ofNat_nonneg _) hlen
      simp only [runStep, hpos, if_true]
      refine ⟨by simpa using hm, ?_⟩
      intro b hb
      simp only [List.mem_append, List.mem_singleton, Effect.send.injEq] at hb
      rcases hb with hb | hb
      · exact htr b hb
      · subst hb
        exact ⟨hpos, le_of_lt hlen⟩
    · simp only [runStep, hpos, if_false]
      exact ⟨hlen, htr⟩

theorem bounded_runLoop (cfg : Config) (evs : List Event) :
    ∀ w, Worker.Bounded cfg w → Worker.Bounded cfg (runLoop cfg w evs) := by
  induction evs with
  | nil => intro w hw; simpa [runLoop] using hw
  | cons ev evs ih =>
    intro w hw
    by_cases hr : w.running
    · simp only [runLoop, hr, if_true]
      exact ih _ (bounded_runStep cfg w ev hw)
    · simp only [runLoop, hr]
      simpa using hw

theorem runLoop_stopped (cfg : Config) (w : Worker) (hw : w.running = false)
    (evs : List Event) : runLoop cfg w evs = w := by
  cases evs with
  | nil => rfl
  | cons ev evs => simp [runLoop, hw]

theorem runLoop_append (cfg : Config) (evs₁ evs₂ : List Event) :
    ∀ w, runLoop cfg w (evs₁ ++ evs₂) = runLoop cfg (runLoop cfg w evs₁) evs₂ := by
  induction evs₁ with
  | nil => intro w; rfl
  | cons ev evs₁ ih =>
    intro w
    by_cases hr : w.running
    · simp only [List.cons_append, runLoop, hr, if_true]
      exact ih _
    · have hr2 : w.running = false := by simpa using hr
      rw [runLoop_stopped cfg w hr2, runLoop_stopped cfg w hr2, runLoop_stopped cfg w hr2]

theorem sentBatches_append (tr₁ tr₂ : List Effect) :
    sentBatches (tr₁ ++ tr₂) = sentBatches tr₁ ++ sentBatches tr₂ := by
  induction tr₁ with
  | nil => rfl
  | cons a tr₁ ih =>
    cases a <;> simp [sentBatches, ih]

theorem held_runDeferred (w : Worker) (hr : w.running = true) :
    (runDeferred w).held = w.held := by
  by_cases hpos : w.batch.length > 0
  · simp [Worker.held, runDeferred, hpos, hr, sentBatches_append, sentBatches]
  · have hnil : w.batch = [] := by
      cases hb : w.batch with
      | nil => rfl
      | cons a l => simp [hb] at hpos
    simp [Worker.held, runDeferred, hr, hnil, sentBatches_append, sentBatches]

theorem held_runLoop (cfg : Config) (evs : List Event) :
    ∀ w, w.running = true → (runLoop cfg w evs).held = w.held ++ dequeued evs := by
  induction evs with
  | nil => intro w _; simp [runLoop, dequeued]
  | cons ev evs ih =>
    intro w hr
    simp only [runLoop, hr, if_true]
    cases ev with
    | ctxDone =>
      rw [runLoop_stopped cfg _ (by simp [runStep, runDeferred])]
      simp [runStep, dequeued, held_runDeferred w hr]
    | quit =>
      rw [runLoop_stopped cfg _ (by simp [runStep, runDeferred])]
      simp [runStep, dequeued, held_runDeferred w hr]
    | entry e =>
      by_cases hfull : ((w.batch ++ [e]).length : Int) ≥ cfg.BatchMaxSize
      · have hstep : runStep cfg w (Event.entry e) =
            { w with trace := w.trace ++ [Effect.send (w.batch ++ [e])], batch := [] } := by
          simp only [runStep, hfull, if_true]
        rw [hstep, ih _ (by simpa using hr)]
        simp [Worker.held, hr, sentBatches_append, sentBatches, dequeued]
      · have hstep : runStep cfg w (Event.entry e) = { w with batch := w.batch ++ [e] } := by
          simp only [runStep, hfull, if_false]
        rw [hstep, ih _ (by simpa using hr)]
        simp [Worker.held, hr, dequeued]
    | tick =>
      by_cases hpos : w.batch.length > 0
      · have hstep : runStep cfg w Event.tick =
            { w with trace := w.trace ++ [Effect.send w.batch], batch := [] } := by
          simp only [runStep, hpos, if_true]
        rw [hstep, ih _ (by simpa using hr)]
        simp [Worker.held, hr, sentBatches_append, sentBatches, dequeued]
      · have hstep : runStep cfg w Event.tick = w := by
          simp only [runStep, hpos, if_false]
        rw [hstep, ih _ hr]
        simp [dequeued]

theorem runLoop_shutdown_stops (cfg : Config) (evs : List Event) :
    ∀ w, (∃ ev ∈ evs, Event.isShutdown ev = true) → (runLoop cfg w evs).running = false := by
  induction evs with
  | nil => intro w h; simp at h
  | cons ev evs ih =>
    intro w h
    by_cases hr : w.running
    · simp only [runLoop, hr, if_true]
      cases ev with
      | ctxDone => rw [runLoop_stopped cfg _ (by simp [runStep, runDeferred])]; simp [runStep, runDeferred]
      | quit => rw [runLoop_stopped cfg _ (by simp [runStep, runDeferred])]; simp [runStep, runDeferred]
      | entry e =>
        apply ih
        simpa [Event.isShutdown] using h
      | tick =>
        apply ih
        simpa [Event.isShutdown] using h
    · simp only [runLoop, hr]
      simpa using hr

/-! ### Runs of dequeued entries -/

theorem succ_mod_of_lt (M n : Nat) (h : n % M + 1 < M) : (n + 1) % M = n % M + 1 := by
  conv_lhs => rw [← Nat.div_add_mod n M]
  rw [Nat.add_assoc, Nat.mul_add_mod]
  exact Nat.mod_eq_of_lt h

theorem succ_mod_of_eq (M n : Nat) (h : n % M + 1 = M) : (n + 1) % M = 0 := by
  conv_lhs => rw [← Nat.div_add_mod n M]
  rw [Nat.add_assoc, Nat.mul_add_mod, h]
  exact Nat.mod_self M

theorem succ_div_of_lt (M n : Nat) (h : n % M + 1 < M) : (n + 1) / M = n / M := by
  have hM : 0 < M := by omega
  conv_lhs => rw [← Nat.div_add_mod n M]
  rw [Nat.add_assoc, Nat.mul_add_div hM, Nat.div_eq_of_lt h]
  rfl

theorem succ_div_of_eq (M n : Nat) (hM : 0 < M) (h : n % M + 1 = M) :
    (n + 1) / M = n / M + 1 := by
  conv_lhs => rw [← Nat.div_add_mod n M]
  rw [Nat.add_assoc, Nat.mul_add_div hM, h, Nat.div_self hM]

theorem run_entries_snoc (cfg : Config) (es : List logEntry) (e : logEntry)
    (hr : (run cfg (entryEvents es)).running = true) :
    run cfg (entryEvents (es ++ [e])) = runStep cfg (run cfg (entryEvents es)) (Event.entry e) := by
  unfold run entryEvents at *
  rw [List.map_append, runLoop_append]
  simp [runLoop, hr]

theorem run_entries_running (cfg : Config) (es : List logEntry) :
    (run cfg (entryEvents es)).running = true := by
  induction es using List.reverseRecOn with
  | nil => rfl
  | append_singleton es e ih =>
    rw [run_entries_snoc cfg es e ih]
    by_cases hfull :
        (((run cfg (entryEvents es)).batch ++ [e]).length : Int) ≥ cfg.BatchMaxSize
    · simp only [runStep, hfull, if_true]
      exact ih
    · simp only [runStep, hfull, if_false]
      exact ih

/-- After dequeuing the entries `es` and nothing else, the pending batch is
the tail of `es` after the last multiple of the threshold. -/
theorem run_entries_batch (cfg : Config) (hm : 0 < cfg.BatchMaxSize) (es : List logEntry) :
    (run cfg (entryEvents es)).batch =
      es.drop (es.length - es.length % cfg.BatchMaxSize.toNat) := by
  have hM : 0 < cfg.BatchMaxSize.toNat := by omega
  have hMm : (cfg.BatchMaxSize.toNat : Int) = cfg.BatchMaxSize := Int.toNat_of_nonneg (le_of_lt hm)
  induction es using List.reverseRecOn with
  | nil => rfl
  | append_singleton es e ih =>
    rw [run_entries_snoc cfg es e (run_entries_running cfg es)]
    have hlen : (run cfg (entryEvents es)).batch.length = es.length % cfg.BatchMaxSize.toNat := by
      rw [ih, List.length_drop]
      have := Nat.mod_le es.length cfg.BatchMaxSize.toNat
      omega
    have hlt : es.length % cfg.BatchMaxSize.toNat < cfg.BatchMaxSize.toNat := Nat.mod_lt _ hM
    by_cases hfull :
        (((run cfg (entryEvents es)).batch ++ [e]).length : Int) ≥ cfg.BatchMaxSize
    · simp only [runStep, hfull, if_true]
      have heq : es.length % cfg.BatchMaxSize.toNat + 1 = cfg.BatchMaxSize.toNat := by
        simp only [List.length_append, List.length_singleton, hlen] at hfull
        omega
      simp [succ_mod_of_eq _ _ heq]
    · simp only [runStep, hfull, if_false]
      have hlt2 : es.length % cfg.BatchMaxSize.toNat + 1 < cfg.BatchMaxSize.toNat := by
        simp only [List.length_append, List.length_singleton, hlen] at hfull
        omega
      rw [ih]
      simp only [List.length_append, List.length_singleton, succ_mod_of_lt _ _ hlt2]
      have hle : es.length - es.length % cfg.BatchMaxSize.toNat ≤ es.length := Nat.sub_le _ _
      have hsub : es.length + 1 - (es.length % cfg.BatchMaxSize.toNat + 1) =
          es.length - es.length % cfg.BatchMaxSize.toNat := by omega
      rw [hsub, List.drop_append_of_le_length hle]

theorem chunk_snoc (M j : Nat) (es : List logEntry) (e : logEntry)
    (h : j * M + M ≤ es.length) :
    ((es ++ [e]).drop (j * M)).take M = (es.drop (j * M)).take M := by
  rw [List.drop_append_of_le_length (by omega)]
  apply List.take_append_of_le_length
  rw [List.length_drop]
  omega

/-- After dequeuing the entries `es` and nothing else, the calls made are one
`send` per completed block of `BatchMaxSize` entries, in order. -/
theorem run_entries_trace (cfg : Config) (hm : 0 < cfg.BatchMaxSize) (es : List logEntry) :
    (run cfg (entryEvents es)).trace =
      (List.range (es.length / cfg.BatchMaxSize.toNat)).map
        (fun j => Effect.send ((es.drop (j * cfg.BatchMaxSize.toNat)).take cfg.BatchMaxSize.toNat)) := by
  have hM : 0 < cfg.BatchMaxSize.toNat := by omega
  induction es using List.reverseRecOn with
  | nil => simp [run, entryEvents, runLoop, Worker.start]
  | append_singleton es e ih =>
    rw [run_entries_snoc cfg es e (run_entries_running cfg es)]
    have hb := run_entries_batch cfg hm es
    have hlen : (run cfg (entryEvents es)).batch.length = es.length % cfg.BatchMaxSize.toNat := by
      rw [hb, List.length_drop]
      have := Nat.mod_le es.length cfg.BatchMaxSize.toNat
      omega
    have hlt : es.length % cfg.BatchMaxSize.toNat < cfg.BatchMaxSize.toNat := Nat.mod_lt _ hM
    have hdm := Nat.div_add_mod es.length cfg.BatchMaxSize.toNat
    have hcongr : (List.range (es.length / cfg.BatchMaxSize.toNat)).map
        (fun j => Effect.send
          (((es ++ [e]).drop (j * cfg.BatchMaxSize.toNat)).take cfg.BatchMaxSize.toNat)) =
        (List.range (es.length / cfg.BatchMaxSize.toNat)).map
        (fun j => Effect.send
          ((es.drop (j * cfg.BatchMaxSize.toNat)).take cfg.BatchMaxSize.toNat)) := by
      apply List.map_congr_left
      intro j hj
      have hj2 : j < es.length / cfg.BatchMaxSize.toNat := List.mem_range.1 hj
      have hj3 : (j + 1) * cfg.BatchMaxSize.toNat ≤
          (es.length / cfg.BatchMaxSize.toNat) * cfg.BatchMaxSize.toNat :=
        Nat.mul_le_mul_right _ hj2
      have hj4 : (es.length / cfg.BatchMaxSize.toNat) * cfg.BatchMaxSize.toNat ≤ es.length :=
        Nat.div_mul_le_self _ _
      rw [chunk_snoc _ _ _ _ (by rw [Nat.add_mul, Nat.one_mul] at hj3; omega)]
    by_cases hfull :
        (((run cfg (entryEvents es)).batch ++ [e]).length : Int) ≥ cfg.BatchMaxSize
    · simp only [runStep, hfull, if_true]
      have heq : es.length % cfg.BatchMaxSize.toNat + 1 = cfg.BatchMaxSize.toNat := by
        simp only [List.length_append, List.length_singleton, hlen] at hfull
        omega
      rw [List.length_append, List.length_singleton, succ_div_of_eq _ _ hM heq,
        List.range_succ, List.map_append, hcongr, ih]
      congr 1
      simp only [List.map_cons, List.map_nil]
      have hqM : es.length / cfg.BatchMaxSize.toNat * cfg.BatchMaxSize.toNat =
          es.length - es.length % cfg.BatchMaxSize.toNat := by
        rw [Nat.mul_comm]; omega
      have hle : es.length - es.length % cfg.BatchMaxSize.toNat ≤ es.length := Nat.sub_le _ _
      rw [hqM, List.drop_append_of_le_length hle, ← hb]
      rw [List.take_of_length_le]
      rw [List.length_append, List.length_singleton, hlen]
      omega
    · simp only [runStep, hfull, if_false]
      have hlt2 : es.length % cfg.BatchMaxSize.toNat + 1 < cfg.BatchMaxSize.toNat := by
        simp only [List.length_append, List.length_singleton, hlen] at hfull
        omega
      rw [List.length_append, List.length_singleton, succ_div_of_lt _ _ hlt2, hcongr, ih]

/-- Effect of dequeuing one more entry after the entries `es`. -/
theorem run_entries_step (cfg : Config) (hm : 0 < cfg.BatchMaxSize) (es : List logEntry)
    (e : logEntry) :
    run cfg (entryEvents (es ++ [e])) =
      if (es.length + 1) % cfg.BatchMaxSize.toNat = 0 then
        { batch := [],
          trace := (run cfg (entryEvents es)).trace ++
            [Effect.send ((es ++ [e]).drop (es.length + 1 - cfg.BatchMaxSize.toNat))],
          running := true }
      else
        { batch := (run cfg (entryEvents es)).batch ++ [e],
          trace := (run cfg (entryEvents es)).trace,
          running := true } := by
  have hM : 0 < cfg.BatchMaxSize.toNat := by omega
  have hrun := run_entries_running cfg es
  have hb := run_entries_batch cfg hm es
  have hlen : (run cfg (entryEvents es)).batch.length = es.length % cfg.BatchMaxSize.toNat := by
    rw [hb, List.length_drop]
    have := Nat.mod_le es.length cfg.BatchMaxSize.toNat
    omega
  have hlt : es.length % cfg.BatchMaxSize.toNat < cfg.BatchMaxSize.toNat := Nat.mod_lt _ hM
  rw [run_entries_snoc cfg es e hrun]
  by_cases hfull :
      (((run cfg (entryEvents es)).batch ++ [e]).length : Int) ≥ cfg.BatchMaxSize
  · have heq : es.length % cfg.BatchMaxSize.toNat + 1 = cfg.BatchMaxSize.toNat := by
      simp only [List.length_append, List.length_singleton, hlen] at hfull
      omega
    have hle : es.length - es.length % cfg.BatchMaxSize.toNat ≤ es.length := Nat.sub_le _ _
    have hsub : es.length + 1 - cfg.BatchMaxSize.toNat =
        es.length - es.length % cfg.BatchMaxSize.toNat := by omega
    simp only [runStep, hfull, if_true, succ_mod_of_eq _ _ heq, hrun]
    rw [hsub, List.drop_append_of_le_length hle, ← hb]
  · have hlt2 : es.length % cfg.BatchMaxSize.toNat + 1 < cfg.BatchMaxSize.toNat := by
      simp only [List.length_append, List.length_singleton, hlen] at hfull
      omega
    have hne : ¬ (es.length + 1) % cfg.BatchMaxSize.toNat = 0 := by
      rw [succ_mod_of_lt _ _ hlt2]; omega
    simp only [runStep, hfull, if_false, hne, hrun]

theorem sentBatches_map_send (bs : List (List logEntry)) :
    sentBatches (bs.map Effect.send) = bs := by
  induction bs with
  | nil => rfl
  | cons b bs ih => simp [sentBatches, ih]

/-! ## The claims about the worker -/

/-- C1: with `BatchMaxSize > 0`, whatever the sequence of `select` outcomes
(entry dequeued, tick, shutdown) from the empty batch, every batch that `run`
passes to `send`, the final flush included, has at least one and at most
`BatchMaxSize` entries. -/
theorem sent_batch_size_bounded (cfg : Config) (hm : 0 < cfg.BatchMaxSize)
    (evs : List Event) (b : List logEntry)
    (hb : Effect.send b ∈ (run cfg evs).trace) :
    1 ≤ b.length ∧ (b.length : Int) ≤ cfg.BatchMaxSize :=
  (bounded_runLoop cfg evs Worker.start (bounded_start cfg hm)).2 b hb

/-- C2: with `BatchMaxSize > 0`, for every sequence of `select` outcomes that
ends with a shutdown signal, the batches passed to `send`, concatenated in
call order (final flush included), are exactly the entries dequeued, in
dequeue order. -/
theorem sent_batches_concat_eq_dequeued (cfg : Config) (_hm : 0 < cfg.BatchMaxSize)
    (pre : List Event) (sd : Event) (hsd : sd.isShutdown = true) :
    (sentBatches (run cfg (pre ++ [sd])).trace).flatten = dequeued (pre ++ [sd]) := by
  have hheld := held_runLoop cfg (pre ++ [sd]) Worker.start rfl
  have hstop : (runLoop cfg Worker.start (pre ++ [sd])).running = false :=
    runLoop_shutdown_stops cfg (pre ++ [sd]) Worker.start ⟨sd, by simp, hsd⟩
  unfold run
  rw [Worker.held, hstop] at hheld
  simpa [Worker.held, Worker.start, sentBatches] using hheld

/-- C3: with `BatchMaxSize = m > 0` and `N ≥ m` entries dequeued from the empty
batch with no tick or shutdown in between, dequeuing entry number `k + 1`
calls `send` exactly when `m` divides `k + 1`, with the `m` most recently
dequeued entries in order, and leaves the batch empty; otherwise it only
appends the entry. Hence the batches sent are the successive full blocks of
`m` entries; with `m = 100` and 150 entries there is exactly one `send`, of the
first 100 entries, and the other 50 are left pending. -/
theorem size_trigger_sends_full_blocks (cfg : Config) (hm : 0 < cfg.BatchMaxSize)
    (es : List logEntry) (_hN : cfg.BatchMaxSize ≤ (es.length : Int)) :
    (∀ (k : Nat) (hk : k < es.length),
      run cfg (entryEvents (es.take (k + 1))) =
        if cfg.BatchMaxSize ∣ ((k : Int) + 1) then
          { batch := [],
            trace := (run cfg (entryEvents (es.take k))).trace ++
              [Effect.send ((es.take (k + 1)).drop (k + 1 - cfg.BatchMaxSize.toNat))],
            running := true }
        else
          { batch := (run cfg (entryEvents (es.take k))).batch ++ [es.get ⟨k, hk⟩],
            trace := (run cfg (entryEvents (es.take k))).trace,
            running := true }) ∧
    (∀ (k : Nat), k < es.length → cfg.BatchMaxSize ∣ ((k : Int) + 1) →
      (((es.take (k + 1)).drop (k + 1 - cfg.BatchMaxSize.toNat)).length : Int) =
        cfg.BatchMaxSize) ∧
    sentBatches (run cfg (entryEvents es)).trace =
      (List.range (es.length / cfg.BatchMaxSize.toNat)).map
        (fun j => (es.drop (j * cfg.BatchMaxSize.toNat)).take cfg.BatchMaxSize.toNat) ∧
    (cfg.BatchMaxSize = 100 → es.length = 150 →
      (run cfg (entryEvents es)).trace = [Effect.send (es.take 100)] ∧
      (run cfg (entryEvents es)).batch = es.drop 100) := by
  have hM : 0 < cfg.BatchMaxSize.toNat := by omega
  have hMm : (cfg.BatchMaxSize.toNat : Int) = cfg.BatchMaxSize :=
    Int.toNat_of_nonneg (le_of_lt hm)
  have hdvd : ∀ k : Nat, cfg.BatchMaxSize ∣ ((k : Int) + 1) ↔
      (k + 1) % cfg.BatchMaxSize.toNat = 0 := by
    intro k
    rw [← Nat.dvd_iff_mod_eq_zero, ← Int.natCast_dvd_natCast, hMm, Nat.cast_add, Nat.cast_one]
  refine ⟨?_, ?_, ?_, ?_⟩
  · intro k hk
    have htake : es.take (k + 1) = es.take k ++ [es.get ⟨k, hk⟩] := by
      rw [List.take_succ, List.getElem?_eq_getElem hk]
      rfl
    have hlk : (es.take k).length = k := by
      rw [List.length_take]; omega
    rw [htake]
    have hstep := run_entries_step cfg hm (es.take k) (es.get ⟨k, hk⟩)
    rw [hlk] at hstep
    rw [hstep]
    by_cases hd : (k + 1) % cfg.BatchMaxSize.toNat = 0
    · rw [if_pos hd, if_pos ((hdvd k).2 hd)]
    · rw [if_neg hd, if_neg (fun h => hd ((hdvd k).1 h))]
  · intro k hk hd
    have hd2 := (hdvd k).1 hd
    have hle : cfg.BatchMaxSize.toNat ≤ k + 1 :=
      Nat.le_of_dvd (Nat.succ_pos k) (Nat.dvd_of_mod_eq_zero hd2)
    rw [← hMm]
    rw [List.length_drop, List.length_take]
    have : min (k + 1) es.length = k + 1 := by omega
    rw [this]
    omega
  · rw [run_entries_trace cfg hm es]
    have := sentBatches_map_send ((List.range (es.length / cfg.BatchMaxSize.toNat)).map
        (fun j => (es.drop (j * cfg.BatchMaxSize.toNat)).take cfg.BatchMaxSize.toNat))
    rw [List.map_map] at this
    exact this
  · intro h100 h150
    have hM100 : cfg.BatchMaxSize.toNat = 100 := by rw [h100]; rfl
    constructor
    · rw [run_entries_trace cfg hm es, hM100, h150]
      simp [List.range_succ]
    · rw [run_entries_batch cfg hm es, hM100, h150]

/-- C4: with `0 < N < BatchMaxSize`, dequeuing `N` entries from the empty batch
and then a tick makes exactly one call to `send`, with all `N` entries in
their original order, and resets the batch to empty; a tick that finds the
batch empty makes no call and changes nothing. -/
theorem tick_flushes_partial_batch (cfg : Config) (es : List logEntry)
    (hpos : 0 < es.length) (hlt : (es.length : Int) < cfg.BatchMaxSize) :
    (run cfg (entryEvents es ++ [Event.tick]) =
      { batch := [], trace := [Effect.send es], running := true }) ∧
    (∀ w : Worker, w.batch = [] → runStep cfg w Event.tick = w) := by
  have hm : 0 < cfg.BatchMaxSize := by omega
  have hltN : es.length < cfg.BatchMaxSize.toNat := by omega
  constructor
  · have hb := run_entries_batch cfg hm es
    have ht := run_entries_trace cfg hm es
    have hr := run_entries_running cfg es
    rw [Nat.mod_eq_of_lt hltN, Nat.sub_self, List.drop_zero] at hb
    rw [Nat.div_eq_of_lt hltN, List.range_zero, List.map_nil] at ht
    unfold run at *
    rw [runLoop_append]
    simp only [runLoop, hr, if_true, runStep, ht, hb, List.nil_append]
    rw [if_pos hpos]
  · intro w hw
    simp [runStep, hw]

/-- C5: when a running worker with residual batch `w.batch` observes a
shutdown signal (`quit` closed or the context cancelled), the calls it makes
from then on, whatever else is pending, are: one final `send` of exactly the
residual batch if it is non-empty, none if it is empty, followed by
`waitGroup.Done` and `ticker.Stop`. -/
theorem shutdown_flushes_residual_once (cfg : Config) (w : Worker) (sd : Event)
    (rest : List Event) (hr : w.running = true) (hsd : sd.isShutdown = true) :
    (runLoop cfg w (sd :: rest)).running = false ∧
    (w.batch ≠ [] → (runLoop cfg w (sd :: rest)).trace =
      w.trace ++ [Effect.send w.batch, Effect.wgDone, Effect.tickerStop]) ∧
    (w.batch = [] → (runLoop cfg w (sd :: rest)).trace =
      w.trace ++ [Effect.wgDone, Effect.tickerStop]) := by
  have hstep : runLoop cfg w (sd :: rest) = runDeferred w := by
    simp only [runLoop, hr, if_true]
    cases sd with
    | ctxDone => exact runLoop_stopped cfg _ rfl rest
    | quit => exact runLoop_stopped cfg _ rfl rest
    | entry e => simp [Event.isShutdown] at hsd
    | tick => simp [Event.isShutdown] at hsd
  rw [hstep]
  refine ⟨rfl, ?_, ?_⟩
  · intro hne
    have hpos : w.batch.length > 0 := List.length_pos.2 hne
    simp [runDeferred, hpos]
  · intro hnil
    simp [runDeferred, hnil]

theorem sent_batch_size_bounded_witness :
    (0 : Int) < (exampleConfig 2 none).BatchMaxSize ∧
    Effect.send [exampleEntry "a" "line a" 1, exampleEntry "b" "line b" 2] ∈
      (run (exampleConfig 2 none)
        [Event.entry (exampleEntry "a" "line a" 1), Event.entry (exampleEntry "b" "line b" 2),
          Event.entry (exampleEntry "c" "line c" 3), Event.quit]).trace ∧
    (1 ≤ [exampleEntry "a" "line a" 1, exampleEntry "b" "line b" 2].length ∧
      (([exampleEntry "a" "line a" 1, exampleEntry "b" "line b" 2].length : Nat) : Int) ≤
        (exampleConfig 2 none).BatchMaxSize) :=
  ⟨by decide, by decide,
    sent_batch_size_bounded (exampleConfig 2 none) (by decide)
      [Event.entry (exampleEntry "a" "line a" 1), Event.entry (exampleEntry "b" "line b" 2),
        Event.entry (exampleEntry "c" "line c" 3), Event.quit]
      [exampleEntry "a" "line a" 1, exampleEntry "b" "line b" 2] (by decide)⟩

theorem sent_batches_concat_eq_dequeued_witness :
    (0 : Int) < (exampleConfig 2 none).BatchMaxSize ∧ Event.quit.isShutdown = true ∧
    (sentBatches (run (exampleConfig 2 none)
      ([Event.entry (exampleEntry "a" "line a" 1), Event.tick,
        Event.entry (exampleEntry "b" "line b" 2), Event.entry (exampleEntry "c" "line c" 3),
        Event.entry (exampleEntry "d" "line d" 4)] ++ [Event.quit])).trace).flatten =
      [exampleEntry "a" "line a" 1, exampleEntry "b" "line b" 2, exampleEntry "c" "line c" 3,
        exampleEntry "d" "line d" 4] :=
  ⟨by decide, rfl,
    sent_batches_concat_eq_dequeued (exampleConfig 2 none) (by decide) _ Event.quit rfl⟩

theorem size_trigger_sends_full_blocks_witness :
    (0 : Int) < (exampleConfig 2 none).BatchMaxSize ∧
    sentBatches (run (exampleConfig 2 none) (entryEvents
      [exampleEntry "a" "line a" 1, exampleEntry "b" "line b" 2, exampleEntry "c" "line c" 3,
        exampleEntry "d" "line d" 4, exampleEntry "e" "line e" 5])).trace =
      [[exampleEntry "a" "line a" 1, exampleEntry "b" "line b" 2],
        [exampleEntry "c" "line c" 3, exampleEntry "d" "line d" 4]] :=
  ⟨by decide,
    (size_trigger_sends_full_blocks (exampleConfig 2 none) (by decide)
      [exampleEntry "a" "line a" 1, exampleEntry "b" "line b" 2, exampleEntry "c" "line c" 3,
        exampleEntry "d" "line d" 4, exampleEntry "e" "line e" 5] (by decide)).2.2.1⟩

theorem tick_flushes_partial_batch_witness :
    run (exampleConfig 100 none) (entryEvents
      [exampleEntry "a" "line a" 1, exampleEntry "b" "line b" 2, exampleEntry "c" "line c" 3] ++
        [Event.tick]) =
      { batch := [],
        trace := [Effect.send [exampleEntry "a" "line a" 1, exampleEntry "b" "line b" 2,
          exampleEntry "c" "line c" 3]],
        running := true } :=
  (tick_flushes_partial_batch (exampleConfig 100 none)
    [exampleEntry "a" "line a" 1, exampleEntry "b" "line b" 2, exampleEntry "c" "line c" 3]
    (by decide) (by decide)).1

theorem shutdown_flushes_residual_once_witness :
    (runLoop (exampleConfig 100 none)
      { batch := [exampleEntry "a" "line a" 1], trace := [], running := true }
      (Event.quit :: [Event.tick, Event.entry (exampleEntry "b" "line b" 2)])).trace =
      [Effect.send [exampleEntry "a" "line a" 1], Effect.wgDone, Effect.tickerStop] :=
  (shutdown_flushes_residual_once (exampleConfig 100 none)
    { batch := [exampleEntry "a" "line a" 1], trace := [], running := true } Event.quit
    [Event.tick, Event.entry (exampleEntry "b" "line b" 2)] rfl rfl).2.1 (by simp)

/-! ## Wire format -/

theorem wrapInt64_of_inRange (n : Int) (hlo : -(2 ^ 63) ≤ n) (hhi : n < 2 ^ 63) :
    wrapInt64 n = n := by
  unfold wrapInt64
  rw [Int.emod_eq_of_lt (by omega) (by omega)]
  omega

/-- When `trunc(Timestamp) * 10^9` fits in a signed 64-bit integer, the
timestamp string produced by `formatLogEntries` is the decimal rendering of
that product. -/
theorem timestamp_string_exact_in_int64_range (entries : List logEntry)
    (h : ∀ e ∈ entries, -(2 ^ 63) ≤ truncFloat64 e.Timestamp * 10 ^ 9 ∧
      truncFloat64 e.Timestamp * 10 ^ 9 < 2 ^ 63) :
    (formatLogEntries entries).map Prod.fst =
      entries.map (fun e => GoString.ofString (FormatInt10 (truncFloat64 e.Timestamp * 10 ^ 9))) := by
  unfold formatLogEntries
  rw [List.map_map]
  apply List.map_congr_left
  intro e he
  obtain ⟨hlo, hhi⟩ := h e he
  have hconv : int64OfFloat64 e.Timestamp = truncFloat64 e.Timestamp := by
    unfold int64OfFloat64
    simp only
    rw [if_pos]
    constructor <;> omega
  simp only [Function.comp, hconv, UnixNano]
  rw [wrapInt64_of_inRange _ (by omega) (by omega)]
  norm_num

/-- C6: for the entry that `Hook` creates for an event at 2023-11-14T22:13:20Z
(`UnixMilli` 1700000000000), `formatLogEntries` yields the timestamp string
2899545218721251328. It is not the decimal string of
`trunc(Timestamp) * 10^9` (1700000000000000000000, which no `int64` holds),
and it is not the nanosecond timestamp of the event, 1700000000000000000,
which the same function yields for an entry of the sink path, whose timestamp
is in seconds. -/
theorem hook_timestamp_string_not_exact :
    (formatLogEntries [hookEntry exampleZapEntry]).map Prod.fst =
      [GoString.ofString "2899545218721251328"] ∧
    FormatInt10 (truncFloat64 (hookEntry exampleZapEntry).Timestamp * 10 ^ 9) =
      "1700000000000000000000" ∧
    (formatLogEntries [hookEntry exampleZapEntry]).map Prod.fst ≠
      [GoString.ofString
        (FormatInt10 (truncFloat64 (hookEntry exampleZapEntry).Timestamp * 10 ^ 9))] ∧
    (formatLogEntries [exampleEntry "failed to fetch URL" "line" 1700000000]).map Prod.fst =
      [GoString.ofString "1700000000000000000"] := by
  refine ⟨by decide, by decide, by decide, by decide⟩

/-- C7: for every entry created by `Hook`, whatever its level, message and
caller, the line value produced by `formatLogEntries` is the empty string;
and for every entry the line value is the field `raw`, empty or not. -/
theorem hook_entry_line_is_empty (z : zapcoreEntry) (entries : List logEntry) :
    (formatLogEntries [hookEntry z]).map Prod.snd = [GoString.ofString ""] ∧
    (formatLogEntries entries).map Prod.snd = entries.map (fun e => e.raw) := by
  constructor
  · rfl
  · unfold formatLogEntries
    rw [List.map_map]
    rfl

/-! ## Request construction -/

theorem Header.get_set_same (h : Header) (key value : String) :
    (h.Set key value).Get key = value := by
  simp [Header.Set, Header.Get, List.find?]

theorem Header.get_set_other (h : Header) (key value key' : String)
    (hne : CanonicalMIMEHeaderKey key ≠ CanonicalMIMEHeaderKey key') :
    (h.Set key value).Get key' = h.Get key' := by
  have hfind : ((CanonicalMIMEHeaderKey key, [value]) ::
      h.filter (fun kv => decide (kv.1 ≠ CanonicalMIMEHeaderKey key))).find?
        (fun kv => decide (kv.1 = CanonicalMIMEHeaderKey key')) =
      h.find? (fun kv => decide (kv.1 = CanonicalMIMEHeaderKey key')) := by
    rw [List.find?_cons_of_neg _ (by simpa using hne), List.find?_filter]
    congr 1
    funext kv
    by_cases hk : kv.1 = CanonicalMIMEHeaderKey key'
    · have : kv.1 ≠ CanonicalMIMEHeaderKey key := fun h2 => hne (h2.symm.trans hk)
      simp [hk, this, Ne.symm hne]
    · simp [hk]
  unfold Header.Set Header.Get
  rw [hfind]

/-- The request built by `send`, when it gets as far as `lp.client.Do`. -/
theorem sendRequest_ok {W G Z : Type} (lib : Lib W G Z) (cfg : Config) (batch : List logEntry)
    (req : Request Z) (h : sendRequest lib cfg batch = Except.ok req) :
    ∃ (msg : W) (g : G) (buf : Z),
      lib.Marshal { Streams := [{ Stream := cfg.Labels, Values := formatLogEntries batch }] } =
        Except.ok msg ∧
      lib.gzipWrite msg = Except.ok g ∧ lib.gzipClose g = Except.ok buf ∧
      req = (match cfg.Auth with
        | some auth => auth.Apply
            { Method := "POST", URL := cfg.Url,
              Header := (Header.Set [] "Content-Type" "application/json").Set
                "Content-Encoding" "gzip",
              Body := buf }
        | none =>
            { Method := "POST", URL := cfg.Url,
              Header := (Header.Set [] "Content-Type" "application/json").Set
                "Content-Encoding" "gzip",
              Body := buf }) := by
  unfold sendRequest at h
  simp only at h
  split at h
  · exact absurd h (by simp)
  · rename_i msg hmsg
    split at h
    · exact absurd h (by simp)
    · rename_i g hg
      split at h
      · exact absurd h (by simp)
      · rename_i buf hbuf
        split at h
        · exact absurd h (by simp)
        · refine ⟨msg, g, buf, hmsg, hg, hbuf, ?_⟩
          split at h
          · exact (Except.ok.inj h).symm
          · exact (Except.ok.inj h).symm

theorem Authenticator.apply_body {Z : Type} (auth : Authenticator) (req : Request Z) :
    (auth.Apply req).Body = req.Body := by
  cases auth <;> rfl


/-! ## Lemmas about UTF-8 -/

theorem ofNat_toNat_byte (b : UInt8) : UInt8.ofNat b.toNat = b := by
  apply UInt8.ext
  show b.toNat % 256 = b.toNat
  exact Nat.mod_eq_of_lt b.toNat_lt

theorem toNat_ofNat_byte (n : Nat) (h : n < 256) : (UInt8.ofNat n).toNat = n := by
  show n % 256 = n
  exact Nat.mod_eq_of_lt h

theorem isCont_iff (b : UInt8) : isCont b = true ↔ 0x80 ≤ b.toNat ∧ b.toNat ≤ 0xBF := by
  simp [isCont]

theorem DecodeRune_shape (b : UInt8) (rest : List UInt8) (hb : 0x80 ≤ b.toNat) :
    DecodeRune (b :: rest) = (RuneError, 1) ∨
      RuneShape (b :: rest) (DecodeRune (b :: rest)).1 (DecodeRune (b :: rest)).2 := by
  have hlt : ¬ b.toNat < 0x80 := by omega
  unfold DecodeRune
  simp only [hlt, if_false]
  by_cases h1 : b.toNat < 0xC2
  · simp [h1]
  · simp only [h1, if_false]
    by_cases h2 : b.toNat < 0xE0
    · simp only [h2, if_true]
      cases rest with
      | nil => simp
      | cons b1 t =>
        by_cases hc : isCont b1 = true
        · right
          simp only [hc, if_true]
          have := (isCont_iff b1).1 hc
          exact RuneShape.two b b1 t (by omega) h2 this.1 this.2
        · simp [hc]
    · simp only [h2, if_false]
      by_cases h3 : b.toNat < 0xF0
      · simp only [h3, if_true]
        match rest with
        | [] => simp
        | [_] => simp
        | b1 :: b2 :: t =>
          by_cases hc : (decide ((if b.toNat = 0xE0 then 0xA0 else 0x80) ≤ b1.toNat) &&
              decide (b1.toNat ≤ (if b.toNat = 0xED then 0x9F else 0xBF)) && isCont b2) = true
          · right
            simp only [hc, if_true]
            simp only [Bool.and_eq_true, decide_eq_true_eq, isCont_iff] at hc
            exact RuneShape.three b b1 b2 t (by omega) h3 hc.1.1 hc.1.2 hc.2.1 hc.2.2
          · simp [hc]
      · simp only [h3, if_false]
        by_cases h4 : b.toNat < 0xF5
        · simp only [h4, if_true]
          match rest with
          | [] => simp
          | [_] => simp
          | [_, _] => simp
          | b1 :: b2 :: b3 :: t =>
            by_cases hc : (decide ((if b.toNat = 0xF0 then 0x90 else 0x80) ≤ b1.toNat) &&
                decide (b1.toNat ≤ (if b.toNat = 0xF4 then 0x8F else 0xBF)) && isCont b2 &&
                isCont b3) = true
            · right
              simp only [hc, if_true]
              simp only [Bool.and_eq_true, decide_eq_true_eq, isCont_iff] at hc
              exact RuneShape.four b b1 b2 b3 t (by omega) h4 hc.1.1.1 hc.1.1.2 hc.1.2.1
                hc.1.2.2 hc.2.1 hc.2.2
            · simp [hc]
        · simp [h4]

theorem RuneShape.decode_take {s : List UInt8} {r n : Nat} (h : RuneShape s r n)
    (X : List UInt8) : DecodeRune (s.take n ++ X) = (r, n) := by
  cases h with
  | two b0 b1 t h0 h0' h1 h1' =>
    have hc : isCont b1 = true := (isCont_iff b1).2 ⟨h1, h1'⟩
    have e1 : ¬ b0.toNat < 0x80 := by omega
    have e2 : ¬ b0.toNat < 0xC2 := by omega
    simp [DecodeRune, e1, e2, h0', hc]
  | three b0 b1 b2 t h0 h0' h1 h1' h2 h2' =>
    have hc : isCont b2 = true := (isCont_iff b2).2 ⟨h2, h2'⟩
    have e1 : ¬ b0.toNat < 0x80 := by omega
    have e2 : ¬ b0.toNat < 0xC2 := by omega
    have e3 : ¬ b0.toNat < 0xE0 := by omega
    simp [DecodeRune, e1, e2, e3, h0', hc, h1, h1']
  | four b0 b1 b2 b3 t h0 h0' h1 h1' h2 h2' h3 h3' =>
    have hc2 : isCont b2 = true := (isCont_iff b2).2 ⟨h2, h2'⟩
    have hc3 : isCont b3 = true := (isCont_iff b3).2 ⟨h3, h3'⟩
    have e1 : ¬ b0.toNat < 0x80 := by omega
    have e2 : ¬ b0.toNat < 0xC2 := by omega
    have e3 : ¬ b0.toNat < 0xE0 := by omega
    have e4 : ¬ b0.toNat < 0xF0 := by omega
    simp [DecodeRune, e1, e2, e3, e4, h0', hc2, hc3, h1, h1']

theorem RuneShape.encode {s : List UInt8} {r n : Nat} (h : RuneShape s r n) :
    EncodeRune r = s.take n := by
  cases h with
  | two b0 b1 t h0 h0' h1 h1' =>
    have hb0 := b0.toNat_lt
    have hb1 := b1.toNat_lt
    have e1 : ¬ (b0.toNat - 0xC0) * 64 + (b1.toNat - 0x80) ≤ 0x7F := by omega
    have e2 : (b0.toNat - 0xC0) * 64 + (b1.toNat - 0x80) ≤ 0x7FF := by omega
    have a0 : 0xC0 + ((b0.toNat - 0xC0) * 64 + (b1.toNat - 0x80)) / 64 = b0.toNat := by omega
    have a1 : 0x80 + ((b0.toNat - 0xC0) * 64 + (b1.toNat - 0x80)) % 64 = b1.toNat := by omega
    simp only [EncodeRune, e1, e2, if_true, if_false, a0, a1, ofNat_toNat_byte]
    rfl
  | three b0 b1 b2 t h0 h0' h1 h1' h2 h2' =>
    have hb0 := b0.toNat_lt
    have e1 : ¬ (b0.toNat - 0xE0) * 4096 + (b1.toNat - 0x80) * 64 + (b2.toNat - 0x80) ≤ 0x7F := by
      split_ifs at h1 h1' <;> omega
    have e2 : ¬ (b0.toNat - 0xE0) * 4096 + (b1.toNat - 0x80) * 64 + (b2.toNat - 0x80) ≤ 0x7FF := by
      split_ifs at h1 h1' <;> omega
    have e3 : ¬ (0x10FFFF < (b0.toNat - 0xE0) * 4096 + (b1.toNat - 0x80) * 64 + (b2.toNat - 0x80) ∨
        (0xD800 ≤ (b0.toNat - 0xE0) * 4096 + (b1.toNat - 0x80) * 64 + (b2.toNat - 0x80) ∧
          (b0.toNat - 0xE0) * 4096 + (b1.toNat - 0x80) * 64 + (b2.toNat - 0x80) ≤ 0xDFFF)) := by
      split_ifs at h1 h1' <;> omega
    have e4 : (b0.toNat - 0xE0) * 4096 + (b1.toNat - 0x80) * 64 + (b2.toNat - 0x80) ≤ 0xFFFF := by
      split_ifs at h1 h1' <;> omega
    have a0 : 0xE0 + ((b0.toNat - 0xE0) * 4096 + (b1.toNat - 0x80) * 64 + (b2.toNat - 0x80)) / 4096 =
        b0.toNat := by split_ifs at h1 h1' <;> omega
    have a1 : 0x80 + ((b0.toNat - 0xE0) * 4096 + (b1.toNat - 0x80) * 64 + (b2.toNat - 0x80)) / 64 % 64 =
        b1.toNat := by split_ifs at h1 h1' <;> omega
    have a2 : 0x80 + ((b0.toNat - 0xE0) * 4096 + (b1.toNat - 0x80) * 64 + (b2.toNat - 0x80)) % 64 =
        b2.toNat := by split_ifs at h1 h1' <;> omega
    simp only [EncodeRune, e1, e2, e3, e4, if_true, if_false, a0, a1, a2, ofNat_toNat_byte]
    rfl
  | four b0 b1 b2 b3 t h0 h0' h1 h1' h2 h2' h3 h3' =>
    have e1 : ¬ (b0.toNat - 0xF0) * 262144 + (b1.toNat - 0x80) * 4096 + (b2.toNat - 0x80) * 64 +
        (b3.toNat - 0x80) ≤ 0x7F := by split_ifs at h1 h1' <;> omega
    have e2 : ¬ (b0.toNat - 0xF0) * 262144 + (b1.toNat - 0x80) * 4096 + (b2.toNat - 0x80) * 64 +
        (b3.toNat - 0x80) ≤ 0x7FF := by split_ifs at h1 h1' <;> omega
    have e3 : ¬ (0x10FFFF < (b0.toNat - 0xF0) * 262144 + (b1.toNat - 0x80) * 4096 +
          (b2.toNat - 0x80) * 64 + (b3.toNat - 0x80) ∨
        (0xD800 ≤ (b0.toNat - 0xF0) * 262144 + (b1.toNat - 0x80) * 4096 + (b2.toNat - 0x80) * 64 +
            (b3.toNat - 0x80) ∧
          (b0.toNat - 0xF0) * 262144 + (b1.toNat - 0x80) * 4096 + (b2.toNat - 0x80) * 64 +
            (b3.toNat - 0x80) ≤ 0xDFFF)) := by
      split_ifs at h1 h1' <;> omega
    have e4 : ¬ (b0.toNat - 0xF0) * 262144 + (b1.toNat - 0x80) * 4096 + (b2.toNat - 0x80) * 64 +
        (b3.toNat - 0x80) ≤ 0xFFFF := by split_ifs at h1 h1' <;> omega
    have a0 : 0xF0 + ((b0.toNat - 0xF0) * 262144 + (b1.toNat - 0x80) * 4096 +
        (b2.toNat - 0x80) * 64 + (b3.toNat - 0x80)) / 262144 = b0.toNat := by
      split_ifs at h1 h1' <;> omega
    have a1 : 0x80 + ((b0.toNat - 0xF0) * 262144 + (b1.toNat - 0x80) * 4096 +
        (b2.toNat - 0x80) * 64 + (b3.toNat - 0x80)) / 4096 % 64 = b1.toNat := by
      split_ifs at h1 h1' <;> omega
    have a2 : 0x80 + ((b0.toNat - 0xF0) * 262144 + (b1.toNat - 0x80) * 4096 +
        (b2.toNat - 0x80) * 64 + (b3.toNat - 0x80)) / 64 % 64 = b2.toNat := by
      split_ifs at h1 h1' <;> omega
    have a3 : 0x80 + ((b0.toNat - 0xF0) * 262144 + (b1.toNat - 0x80) * 4096 +
        (b2.toNat - 0x80) * 64 + (b3.toNat - 0x80)) % 64 = b3.toNat := by
      split_ifs at h1 h1' <;> omega
    simp only [EncodeRune, e1, e2, e3, e4, if_true, if_false, a0, a1, a2, a3, ofNat_toNat_byte]
    rfl

theorem RuneShape.width {s : List UInt8} {r n : Nat} (h : RuneShape s r n) :
    1 ≤ n ∧ n ≤ s.length ∧ ∃ b t, s.take n = b :: t ∧ 0x80 ≤ b.toNat := by
  cases h with
  | two b0 b1 t h0 h0' h1 h1' =>
    exact ⟨by omega, by simp, b0, [b1], rfl, by omega⟩
  | three b0 b1 b2 t h0 h0' h1 h1' h2 h2' =>
    exact ⟨by omega, by simp, b0, [b1, b2], rfl, by omega⟩
  | four b0 b1 b2 b3 t h0 h0' h1 h1' h2 h2' h3 h3' =>
    exact ⟨by omega, by simp, b0, [b1, b2, b3], rfl, by omega⟩

theorem RuneShape.two_le {s : List UInt8} {r n : Nat} (h : RuneShape s r n) : 2 ≤ n := by
  cases h <;> omega


/-! ## Lemmas about string literals -/

theorem byte_eq_of_toNat (b : UInt8) (n : Nat) (hn : n < 256) (h : b.toNat = n) :
    b = UInt8.ofNat n := by
  apply UInt8.ext
  rw [toNat_ofNat_byte n hn, h]

theorem unquoteBody_plain (c : UInt8) (h1 : c.toNat ≠ 0x22) (h2 : c.toNat ≠ 0x5C)
    (h3 : 0x20 ≤ c.toNat) (h4 : c.toNat < 0x80) (f : Nat) (X acc : List UInt8) :
    unquoteBody (f + 1) (c :: X) acc = unquoteBody f X (acc ++ [c]) := by
  have h3' : ¬ c.toNat < 0x20 := by omega
  simp [unquoteBody, h1, h2, h3', h4]

theorem unquoteBody_escape (e : UInt8) (f : Nat) (X acc : List UInt8) :
    unquoteBody (f + 1) (0x5C :: e :: X) acc =
      if e.toNat = 0x22 ∨ e.toNat = 0x5C ∨ e.toNat = 0x2F then unquoteBody f X (acc ++ [e])
      else if e.toNat = 0x62 then unquoteBody f X (acc ++ [0x08])
      else if e.toNat = 0x66 then unquoteBody f X (acc ++ [0x0C])
      else if e.toNat = 0x6E then unquoteBody f X (acc ++ [0x0A])
      else if e.toNat = 0x72 then unquoteBody f X (acc ++ [0x0D])
      else if e.toNat = 0x74 then unquoteBody f X (acc ++ [0x09])
      else if e.toNat = 0x75 then
        match getu4 (0x5C :: e :: X) with
        | none => none
        | some rr =>
          if 0xD800 ≤ rr ∧ rr < 0xE000 then
            if utf16DecodeRune rr (getu4 (X.drop 4)) ≠ RuneError then
              unquoteBody f (X.drop 10)
                (acc ++ EncodeRune (utf16DecodeRune rr (getu4 (X.drop 4))))
            else unquoteBody f (X.drop 4) (acc ++ EncodeRune RuneError)
          else unquoteBody f (X.drop 4) (acc ++ EncodeRune rr)
      else none := by
  have e1 : (0x5C : UInt8).toNat ≠ 0x22 := by decide
  have e2 : (0x5C : UInt8).toNat = 0x5C := by decide
  rw [unquoteBody]
  simp only [e2]
  rw [if_neg (by decide), if_pos trivial]

theorem hexVal_hexDigit (k : Nat) (hk : k < 16) : hexVal (hexDigit k) = some k := by
  interval_cases k <;> decide

theorem unquoteBody_u00 (x : Nat) (hx : x < 0x80) (f : Nat) (X acc : List UInt8) :
    unquoteBody (f + 1)
        ([0x5C, 0x75, 0x30, 0x30, hexDigit (x / 16), hexDigit (x % 16)] ++ X) acc =
      unquoteBody f X (acc ++ [UInt8.ofNat x]) := by
  have h0 : hexVal 0x30 = some 0 := by decide
  have hg : getu4 (0x5C :: 0x75 :: 0x30 :: 0x30 :: hexDigit (x / 16) :: hexDigit (x % 16) :: X) =
      some x := by
    have e1 : (0x5C : UInt8).toNat = 0x5C := by decide
    have e2 : (0x75 : UInt8).toNat = 0x75 := by decide
    simp only [getu4, e1, e2, and_self, if_true, h0, hexVal_hexDigit (x / 16) (by omega),
      hexVal_hexDigit (x % 16) (by omega)]
    congr 1
    omega
  have e75 : (0x75 : UInt8).toNat = 0x75 := by decide
  have hs : ¬ (0xD800 ≤ x ∧ x < 0xE000) := by omega
  have henc : EncodeRune x = [UInt8.ofNat x] := by
    simp [EncodeRune, show x ≤ 0x7F by omega]
  show unquoteBody (f + 1) (0x5C :: 0x75 :: 0x30 :: 0x30 :: hexDigit (x / 16) ::
    hexDigit (x % 16) :: X) acc = _
  rw [unquoteBody_escape, hg]
  simp only [e75]
  norm_num [hs, henc]

theorem unquoteBody_escapeByte (b : UInt8) (hb : b.toNat < 0x80) (f : Nat) (X acc : List UInt8) :
    unquoteBody (f + 1) (escapeByte b ++ X) acc = unquoteBody f X (acc ++ [b]) := by
  unfold escapeByte
  by_cases hs : htmlSafe b = true
  · simp only [hs, if_true]
    simp only [htmlSafe, Bool.and_eq_true, decide_eq_true_eq] at hs
    exact unquoteBody_plain b (by omega) (by omega) (by omega) (by omega) f X acc
  · rw [if_neg hs]
    simp only [htmlSafe, Bool.and_eq_true, decide_eq_true_eq] at hs
    by_cases h1 : b.toNat = 0x5C ∨ b.toNat = 0x22
    · simp only [h1, if_true]
      show unquoteBody (f + 1) (0x5C :: b :: X) acc = _
      rw [unquoteBody_escape]
      have : b.toNat = 0x22 ∨ b.toNat = 0x5C ∨ b.toNat = 0x2F := by omega
      simp [this]
    · simp only [h1, if_false]
      by_cases h2 : b.toNat = 0x08
      · simp only [h2, if_true]
        rw [byte_eq_of_toNat b 8 (by omega) h2]
        rfl
      · simp only [h2, if_false]
        by_cases h3 : b.toNat = 0x0C
        · simp only [h3, if_true]
          rw [byte_eq_of_toNat b 12 (by omega) h3]
          rfl
        · simp only [h3, if_false]
          by_cases h4 : b.toNat = 0x0A
          · simp only [h4, if_true]
            rw [byte_eq_of_toNat b 10 (by omega) h4]
            rfl
          · simp only [h4, if_false]
            by_cases h5 : b.toNat = 0x0D
            · simp only [h5, if_true]
              rw [byte_eq_of_toNat b 13 (by omega) h5]
              rfl
            · simp only [h5, if_false]
              by_cases h6 : b.toNat = 0x09
              · simp only [h6, if_true]
                rw [byte_eq_of_toNat b 9 (by omega) h6]
                rfl
              · simp only [h6, if_false]
                rw [unquoteBody_u00 b.toNat hb f X acc, ofNat_toNat_byte]

theorem escapeByte_length_pos (b : UInt8) : 1 ≤ (escapeByte b).length := by
  unfold escapeByte
  split_ifs <;> simp


theorem unquoteBody_u4 (a b c d : Nat) (ha : a < 16) (hb : b < 16) (hc : c < 16) (hd : d < 16)
    (hs : ¬ (0xD800 ≤ ((a * 16 + b) * 16 + c) * 16 + d ∧
      ((a * 16 + b) * 16 + c) * 16 + d < 0xE000)) (f : Nat) (X acc : List UInt8) :
    unquoteBody (f + 1)
        ([0x5C, 0x75, hexDigit a, hexDigit b, hexDigit c, hexDigit d] ++ X) acc =
      unquoteBody f X (acc ++ EncodeRune (((a * 16 + b) * 16 + c) * 16 + d)) := by
  have hg : getu4 (0x5C :: 0x75 :: hexDigit a :: hexDigit b :: hexDigit c :: hexDigit d :: X) =
      some (((a * 16 + b) * 16 + c) * 16 + d) := by
    have e1 : (0x5C : UInt8).toNat = 0x5C := by decide
    have e2 : (0x75 : UInt8).toNat = 0x75 := by decide
    simp only [getu4, e1, e2, and_self, if_true, hexVal_hexDigit a ha, hexVal_hexDigit b hb,
      hexVal_hexDigit c hc, hexVal_hexDigit d hd]
  have e75 : (0x75 : UInt8).toNat = 0x75 := by decide
  show unquoteBody (f + 1) (0x5C :: 0x75 :: hexDigit a :: hexDigit b :: hexDigit c ::
    hexDigit d :: X) acc = _
  rw [unquoteBody_escape, hg]
  simp only [e75]
  norm_num [hs]

theorem unquoteBody_lineSep (r : Nat) (hr : r = 0x2028 ∨ r = 0x2029) (f : Nat)
    (X acc : List UInt8) :
    unquoteBody (f + 1) ([0x5C, 0x75, 0x32, 0x30, 0x32, hexDigit (r % 16)] ++ X) acc =
      unquoteBody f X (acc ++ EncodeRune r) := by
  have h := unquoteBody_u4 2 0 2 (r % 16) (by omega) (by omega) (by omega) (by omega)
    (by omega) f X acc
  have hv : ((2 * 16 + 0) * 16 + 2) * 16 + r % 16 = r := by omega
  rw [hv] at h
  exact h

theorem unquoteBody_rune {s : List UInt8} {r n : Nat} (h : RuneShape s r n) (f : Nat)
    (X acc : List UInt8) :
    unquoteBody (f + 1) (s.take n ++ X) acc = unquoteBody f X (acc ++ s.take n) := by
  obtain ⟨hn1, hn, b, t, htake, hb⟩ := h.width
  have hdec := h.decode_take X
  have henc := h.encode
  have hlen : (s.take n).length = n := by
    rw [List.length_take]; omega
  rw [htake] at hdec henc hlen ⊢
  have e1 : b.toNat ≠ 0x22 := by omega
  have e2 : b.toNat ≠ 0x5C := by omega
  have e3 : ¬ b.toNat < 0x20 := by omega
  have e4 : ¬ b.toNat < 0x80 := by omega
  have hdec' : DecodeRune (b :: (t ++ X)) = (r, n) := hdec
  show unquoteBody (f + 1) (b :: (t ++ X)) acc = _
  simp only [unquoteBody, e1, e2, e3, e4, if_false, hdec', henc]
  congr 1
  have : b :: (t ++ X) = (b :: t) ++ X := rfl
  rw [this, List.drop_append_of_le_length (by omega), List.drop_of_length_le (by omega)]
  rfl

/-- A string that is valid UTF-8 is read back from its JSON literal, whatever
follows the closing quote. -/
theorem unquoteBody_appendStringBody (n : Nat) :
    ∀ (s : List UInt8), s.length ≤ n → validLoop n s = true →
      ∀ (f : Nat) (acc rest : List UInt8),
        (appendStringBody n s).length + 1 + rest.length ≤ f →
        unquoteBody f (appendStringBody n s ++ 0x22 :: rest) acc = some (acc ++ s, rest) := by
  induction n with
  | zero =>
    intro s hs _ f acc rest hf
    have hnil : s = [] := List.eq_nil_of_length_eq_zero (by omega)
    subst hnil
    obtain ⟨f', rfl⟩ : ∃ f', f = f' + 1 := ⟨f - 1, by simp [appendStringBody] at hf; omega⟩
    simp [appendStringBody, unquoteBody]
  | succ n ih =>
    intro s hs hv f acc rest hf
    cases s with
    | nil =>
      obtain ⟨f', rfl⟩ : ∃ f', f = f' + 1 := ⟨f - 1, by simp [appendStringBody] at hf; omega⟩
      simp [appendStringBody, unquoteBody]
    | cons b t =>
      have ht : t.length ≤ n := by simpa using hs
      by_cases hb : b.toNat < 0x80
      · have hdec : DecodeRune (b :: t) = (b.toNat, 1) := by simp [DecodeRune, hb]
        have hne : ¬ (b.toNat = RuneError ∧ True) := by
          unfold RuneError; omega
        have hv' : validLoop n t = true := by
          simp only [validLoop, hdec, List.drop_one, List.tail_cons] at hv
          rw [if_neg hne] at hv
          exact hv
        have happ : appendStringBody (n + 1) (b :: t) = escapeByte b ++ appendStringBody n t := by
          simp [appendStringBody, hb]
        rw [happ] at hf ⊢
        have hpos := escapeByte_length_pos b
        obtain ⟨f', rfl⟩ : ∃ f', f = f' + 1 := ⟨f - 1, by simp at hf; omega⟩
        rw [List.append_assoc, unquoteBody_escapeByte b hb]
        rw [ih t ht hv' f' (acc ++ [b]) rest (by simp at hf ⊢; omega)]
        simp
      · have hb' : 0x80 ≤ b.toNat := by omega
        rcases DecodeRune_shape b t hb' with hbad | hshape
        · simp [validLoop, hbad] at hv
        · obtain ⟨hn1, hn, b0, t0, htake, hb0⟩ := hshape.width
          have hn2 : 2 ≤ (DecodeRune (b :: t)).2 := hshape.two_le
          have hne : ¬ ((DecodeRune (b :: t)).1 = RuneError ∧ (DecodeRune (b :: t)).2 = 1) := by
            omega
          have hv' : validLoop n ((b :: t).drop (DecodeRune (b :: t)).2) = true := by
            simpa [validLoop, hne] using hv
          have hdl : ((b :: t).drop (DecodeRune (b :: t)).2).length ≤ n := by
            rw [List.length_drop]; simp at hs ⊢; omega
          have hsplit : (b :: t).take (DecodeRune (b :: t)).2 ++
              (b :: t).drop (DecodeRune (b :: t)).2 = b :: t := List.take_append_drop _ _
          have htl : ((b :: t).take (DecodeRune (b :: t)).2).length = (DecodeRune (b :: t)).2 := by
            rw [List.length_take]; omega
          by_cases hls : (DecodeRune (b :: t)).1 = 0x2028 ∨ (DecodeRune (b :: t)).1 = 0x2029
          · have happ : appendStringBody (n + 1) (b :: t) =
                [0x5C, 0x75, 0x32, 0x30, 0x32, hexDigit ((DecodeRune (b :: t)).1 % 16)] ++
                  appendStringBody n ((b :: t).drop (DecodeRune (b :: t)).2) := by
              rw [appendStringBody]
              simp only [hb, if_false, hne, hls, if_true]
            rw [happ] at hf ⊢
            obtain ⟨f', rfl⟩ : ∃ f', f = f' + 1 := ⟨f - 1, by simp at hf; omega⟩
            rw [List.append_assoc, unquoteBody_lineSep _ hls, hshape.encode]
            rw [ih _ hdl hv' f' _ rest (by simp at hf ⊢; omega)]
            rw [List.append_assoc, hsplit]
          · have happ : appendStringBody (n + 1) (b :: t) =
                (b :: t).take (DecodeRune (b :: t)).2 ++
                  appendStringBody n ((b :: t).drop (DecodeRune (b :: t)).2) := by
              rw [appendStringBody]
              simp only [hb, if_false, hne, hls]
            rw [happ] at hf ⊢
            obtain ⟨f', rfl⟩ : ∃ f', f = f' + 1 :=
              ⟨f - 1, by rw [List.length_append, htl] at hf; omega⟩
            rw [List.append_assoc, unquoteBody_rune hshape]
            rw [ih _ hdl hv' f' _ rest (by rw [List.length_append, htl] at hf; omega)]
            rw [List.append_assoc, hsplit]


/-! ## Lemmas about arrays and objects -/

theorem appendString_append (s : GoString) (rest : List UInt8) :
    appendString s ++ rest = 0x22 :: (appendStringBody s.length s ++ 0x22 :: rest) := by
  simp [appendString]

theorem unquote_appendString (s : GoString) (hs : Valid s = true) (rest : List UInt8) :
    unquote (appendStringBody s.length s ++ 0x22 :: rest) = some (s, rest) := by
  unfold unquote
  have h := unquoteBody_appendStringBody s.length s (le_refl _) hs
    (appendStringBody s.length s ++ 0x22 :: rest).length [] rest (by simp; omega)
  simpa using h

theorem skipSpace_cons (c : UInt8) (t : List UInt8) (hc : isSpace c = false) :
    skipSpace (c :: t) = c :: t := by
  simp [skipSpace, hc]

theorem decodeString_appendString (old s : GoString) (hs : Valid s = true) (rest : List UInt8) :
    decodeString old (appendString s ++ rest) = some (s, rest) := by
  rw [appendString_append]
  unfold decodeString
  rw [skipSpace_cons _ _ (by decide)]
  simp only
  rw [if_pos (by decide)]
  exact unquote_appendString s hs rest

theorem joinComma_cons_cons (x y : List UInt8) (xs : List (List UInt8)) :
    joinComma (x :: y :: xs) = x ++ 0x2C :: joinComma (y :: xs) := rfl

theorem length_le_joinComma (xs : List (List UInt8)) (h : ∀ x ∈ xs, 1 ≤ x.length) :
    xs.length ≤ (joinComma xs).length + 1 := by
  induction xs with
  | nil => simp
  | cons x xs ih =>
    cases xs with
    | nil => simp [joinComma]
    | cons y ys =>
      rw [joinComma_cons_cons]
      have h1 := h x (by simp)
      have h2 := ih (fun z hz => h z (by simp [hz]))
      simp only [List.length_cons, List.length_append] at *
      omega

/-- The elements of an array are read from their encodings separated by
commas, when each element is read from its encoding: `g a` is what is read
from the encoding of `a`. -/
theorem decodeElems_joinComma {α β : Type} (elem : Nat → List UInt8 → Option (β × List UInt8))
    (enc : α → List UInt8) (g : α → β) (bound : Nat) (l : List α) :
    (∀ i, i < bound → ∀ a ∈ l, ∀ rest, elem i (enc a ++ rest) = some (g a, rest)) →
    l ≠ [] →
    ∀ (f i : Nat) (acc : List β) (rest : List UInt8), l.length ≤ f → i + l.length ≤ bound →
      decodeElems elem f i acc (joinComma (l.map enc) ++ 0x5D :: rest) =
        some (acc ++ l.map g, rest) := by
  induction l with
  | nil => intro _ h; exact absurd rfl h
  | cons a l ih =>
    intro helem _ f i acc rest hf hi
    obtain ⟨f', rfl⟩ : ∃ f', f = f' + 1 := ⟨f - 1, by simp at hf; omega⟩
    cases l with
    | nil =>
      simp only [List.map_cons, List.map_nil, joinComma]
      rw [decodeElems, helem i (by simp at hi; omega) a (by simp)]
      simp only
      rw [skipSpace_cons _ _ (by decide)]
      simp only
      rw [if_neg (by decide), if_pos (by decide)]
    | cons b l' =>
      simp only [List.map_cons, joinComma_cons_cons, List.append_assoc, List.cons_append]
      rw [decodeElems, helem i (by simp at hi; omega) a (by simp)]
      simp only
      rw [skipSpace_cons _ _ (by decide)]
      simp only
      rw [if_pos (by decide)]
      have := ih (fun j hj x hx => helem j hj x (by simp [hx])) (by simp) f' (i + 1)
        (acc ++ [g a]) rest (by simp at hf ⊢; omega) (by simp at hi ⊢; omega)
      simp only [List.map_cons] at this
      rw [this]
      simp

/-- A slice is read from its encoding when each element is and no element
encoding starts with white space or a closing bracket. -/
theorem decodeArray_encodeSlice {α β : Type} (elem : Nat → List UInt8 → Option (β × List UInt8))
    (enc : α → List UInt8) (g : α → β) (bound : Nat) (l : List α)
    (helem : ∀ i, i < bound → ∀ a ∈ l, ∀ rest, elem i (enc a ++ rest) = some (g a, rest))
    (hhead : ∀ a ∈ l, ∃ c t, enc a = c :: t ∧ isSpace c = false ∧ c.toNat ≠ 0x5D)
    (hbound : l.length ≤ bound) (rest : List UInt8) :
    decodeArray elem (encodeSlice enc l ++ rest) = some (some (l.map g), rest) := by
  unfold decodeArray encodeSlice
  simp only [List.cons_append, List.append_assoc, List.singleton_append, List.nil_append]
  rw [skipSpace_cons _ _ (by decide)]
  simp only
  rw [if_pos (by decide)]
  cases l with
  | nil =>
    simp only [List.map_nil, joinComma, List.nil_append]
    rw [skipSpace_cons _ _ (by decide)]
    simp only
    rw [if_pos (by decide)]
  | cons a l' =>
    obtain ⟨c, t, hct, hsp, hne⟩ := hhead a (by simp)
    have hjoin : ∃ t', joinComma ((a :: l').map enc) ++ 0x5D :: rest = c :: t' := by
      cases l' with
      | nil => exact ⟨t ++ 0x5D :: rest, by simp [joinComma, hct]⟩
      | cons b l'' =>
        exact ⟨t ++ 0x2C :: joinComma ((b :: l'').map enc) ++ 0x5D :: rest, by
          simp [joinComma_cons_cons, hct]⟩
    obtain ⟨t', ht'⟩ := hjoin
    have hlen : (a :: l').length ≤ (joinComma ((a :: l').map enc) ++ 0x5D :: rest).length := by
      have := length_le_joinComma ((a :: l').map enc) (by
        intro x hx
        obtain ⟨y, hy, rfl⟩ := List.mem_map.1 hx
        obtain ⟨c', t'', h', _⟩ := hhead y hy
        rw [h']; simp)
      simp only [List.length_map, List.length_cons] at this
      simp only [List.length_append, List.length_cons]
      omega
    have hdec := decodeElems_joinComma elem enc g bound (a :: l') helem (by simp)
      (joinComma ((a :: l').map enc) ++ 0x5D :: rest).length 0 [] rest hlen (by simpa using hbound)
    rw [ht'] at hdec ⊢
    rw [skipSpace_cons _ _ hsp]
    simp only
    rw [if_neg hne, hdec]
    simp


theorem appendString_head (s : GoString) :
    ∃ c t, appendString s = c :: t ∧ isSpace c = false ∧ c.toNat ≠ 0x5D ∧ c.toNat ≠ 0x7D :=
  ⟨0x22, _, rfl, by decide, by decide, by decide⟩

theorem decodePair_encodePair (v : GoString × GoString) (h1 : Valid v.1 = true)
    (h2 : Valid v.2 = true) (rest : List UInt8) :
    decodePair (encodePair v ++ rest) = some (v, rest) := by
  have henc : encodePair v =
      encodeSlice (fun o : Option GoString => appendString (o.getD [])) [some v.1, some v.2] := by
    simp [encodePair, encodeSlice, joinComma]
  have hdec := decodeArray_encodeSlice pairElem
    (fun o : Option GoString => appendString (o.getD [])) id 2 [some v.1, some v.2]
    (by
      intro i hi a ha r
      have hva : Valid (a.getD []) = true ∧ a = some (a.getD []) := by
        simp only [List.mem_cons, List.mem_singleton, List.not_mem_nil, or_false] at ha
        rcases ha with rfl | rfl
        · exact ⟨h1, rfl⟩
        · exact ⟨h2, rfl⟩
      unfold pairElem
      rw [if_pos hi]
      simp only
      rw [decodeString_appendString [] _ hva.1 r]
      simp only [Option.map_some', id]
      rw [← hva.2])
    (by
      intro a _
      obtain ⟨c, t, h, hs, hb, _⟩ := appendString_head (a.getD [])
      exact ⟨c, t, h, hs, hb⟩)
    (by simp) rest
  unfold decodePair
  rw [henc, hdec]
  simp

theorem encodePair_head (v : GoString × GoString) :
    ∃ c t, encodePair v = c :: t ∧ isSpace c = false ∧ c.toNat ≠ 0x5D :=
  ⟨0x5B, _, rfl, by decide, by decide⟩

theorem decodeArray_values (vs : List (GoString × GoString))
    (hv : ∀ v ∈ vs, Valid v.1 = true ∧ Valid v.2 = true) (rest : List UInt8) :
    decodeArray (fun _ => decodePair) (encodeSlice encodePair vs ++ rest) =
      some (some vs, rest) := by
  have h := decodeArray_encodeSlice (fun _ => decodePair) encodePair id vs.length vs
    (fun _ _ a ha r => decodePair_encodePair a (hv a ha).1 (hv a ha).2 r)
    (fun a _ => encodePair_head a) (le_refl _) rest
  simpa using h

/-- The members of an object are read back when each key is valid UTF-8 and
each value is read back by `field` under its key: the result is the state
after the updates of the members in order. -/
theorem decodeMembers_joinComma {σ : Type}
    (field : GoString → σ → List UInt8 → Option (σ × List UInt8))
    (l : List (GoString × List UInt8 × (σ → σ))) :
    (∀ b ∈ l, Valid b.1 = true) →
    (∀ b ∈ l, ∀ st rest, field b.1 st (b.2.1 ++ rest) = some (b.2.2 st, rest)) →
    l ≠ [] →
    ∀ (f : Nat) (st : σ) (rest : List UInt8), l.length ≤ f →
      decodeMembers field f st
          (joinComma (l.map fun b => appendString b.1 ++ 0x3A :: b.2.1) ++ 0x7D :: rest) =
        some (l.foldl (fun s b => b.2.2 s) st, rest) := by
  induction l with
  | nil => intro _ _ h; exact absurd rfl h
  | cons a l ih =>
    intro hkey hfield _ f st rest hf
    obtain ⟨f', rfl⟩ : ∃ f', f = f' + 1 := ⟨f - 1, by simp at hf; omega⟩
    have hk := hkey a (by simp)
    have hfa := hfield a (by simp)
    cases l with
    | nil =>
      simp only [List.map_cons, List.map_nil, joinComma, List.append_assoc, List.cons_append,
        appendString_append]
      rw [decodeMembers, skipSpace_cons _ _ (by decide)]
      simp only
      rw [if_pos (by decide), unquote_appendString _ hk]
      simp only
      rw [skipSpace_cons _ _ (by decide)]
      simp only
      rw [if_pos (by decide), hfa]
      simp only
      rw [skipSpace_cons _ _ (by decide)]
      simp only
      rw [if_neg (by decide), if_pos (by decide)]
      rfl
    | cons b l' =>
      simp only [List.map_cons, joinComma_cons_cons, List.append_assoc, List.cons_append,
        appendString_append]
      rw [decodeMembers, skipSpace_cons _ _ (by decide)]
      simp only
      rw [if_pos (by decide), unquote_appendString _ hk]
      simp only
      rw [skipSpace_cons _ _ (by decide)]
      simp only
      rw [if_pos (by decide), hfa]
      simp only
      rw [skipSpace_cons _ _ (by decide)]
      simp only
      rw [if_pos (by decide)]
      have := ih (fun x hx => hkey x (by simp [hx])) (fun x hx => hfield x (by simp [hx]))
        (by simp) f' (a.2.2 st) rest (by simp at hf ⊢; omega)
      simp only [List.map_cons, appendString_append] at this
      rw [this]
      rfl

/-- An object is read back into the state after the updates of its members,
under the conditions of `decodeMembers_joinComma`. -/
theorem decodeObject_members {σ : Type}
    (field : GoString → σ → List UInt8 → Option (σ × List UInt8))
    (l : List (GoString × List UInt8 × (σ → σ)))
    (hkey : ∀ b ∈ l, Valid b.1 = true)
    (hfield : ∀ b ∈ l, ∀ st rest, field b.1 st (b.2.1 ++ rest) = some (b.2.2 st, rest))
    (st : σ) (rest : List UInt8) :
    decodeObject field st
        (0x7B :: (joinComma (l.map fun b => appendString b.1 ++ 0x3A :: b.2.1) ++ 0x7D :: rest)) =
      some (some (l.foldl (fun s b => b.2.2 s) st), rest) := by
  unfold decodeObject
  rw [skipSpace_cons _ _ (by decide)]
  simp only
  rw [if_pos (by decide)]
  cases l with
  | nil =>
    simp only [List.map_nil, joinComma, List.nil_append]
    rw [skipSpace_cons _ _ (by decide)]
    simp only
    rw [if_pos (by decide)]
    rfl
  | cons a l' =>
    have hlen : (a :: l').length ≤
        (joinComma ((a :: l').map fun b => appendString b.1 ++ 0x3A :: b.2.1) ++
          0x7D :: rest).length := by
      have := length_le_joinComma ((a :: l').map fun b => appendString b.1 ++ 0x3A :: b.2.1) (by
        intro x hx
        obtain ⟨y, _, rfl⟩ := List.mem_map.1 hx
        simp [appendString])
      simp only [List.length_map, List.length_cons] at this
      simp only [List.length_append, List.length_cons]
      omega
    have hdec := decodeMembers_joinComma field (a :: l') hkey hfield (by simp) _ st rest hlen
    have hhead : ∃ t', joinComma ((a :: l').map fun b => appendString b.1 ++ 0x3A :: b.2.1) ++
        0x7D :: rest = 0x22 :: t' := by
      cases l' with
      | nil => exact ⟨_, by simp [joinComma, appendString]; rfl⟩
      | cons b l'' => exact ⟨_, by simp [joinComma_cons_cons, appendString]; rfl⟩
    obtain ⟨t', ht'⟩ := hhead
    rw [ht'] at hdec ⊢
    rw [skipSpace_cons _ _ (by decide)]
    simp only
    rw [if_neg (by decide), hdec]
    rfl


/-! ## Lemmas about the label map, the stream and the request -/

theorem mapSet_fresh (m : List (GoString × GoString)) (k v : GoString)
    (h : k ∉ m.map Prod.fst) : mapSet m k v = m ++ [(k, v)] := by
  unfold mapSet
  have : m.any (fun kv => decide (kv.1 = k)) = false := by
    rw [List.any_eq_false]
    intro kv hkv
    simp only [decide_eq_true_eq]
    intro hk
    exact h (List.mem_map.2 ⟨kv, hkv, hk⟩)
  rw [this]
  simp

theorem foldl_mapSet (l : List (GoString × GoString)) :
    ∀ pre : List (GoString × GoString), ((pre ++ l).map Prod.fst).Nodup →
      l.foldl (fun st kv => mapSet st kv.1 kv.2) pre = pre ++ l := by
  induction l with
  | nil => intro pre _; simp
  | cons kv l ih =>
    intro pre hnd
    have hfresh : kv.1 ∉ pre.map Prod.fst := by
      rw [List.map_append, List.map_cons] at hnd
      have := (List.nodup_append.1 hnd).2.2
      intro hmem
      exact this hmem (by simp)
    rw [List.foldl_cons, mapSet_fresh pre kv.1 kv.2 hfresh]
    have := ih (pre ++ [kv]) (by simpa using hnd)
    simpa using this

theorem sortKeys_perm (m : List (GoString × GoString)) : (sortKeys m).Perm m :=
  List.perm_insertionSort _ m

theorem decodeMap_encodeMap (m old : Option (List (GoString × GoString)))
    (hv : ∀ l, m = some l → ∀ kv ∈ l, Valid kv.1 = true ∧ Valid kv.2 = true)
    (rest : List UInt8) :
    decodeMap old (encodeMap m ++ rest) = some (mapInto m old, rest) := by
  cases m with
  | none =>
    have : encodeMap none ++ rest = 0x6E :: 0x75 :: 0x6C :: 0x6C :: rest := rfl
    rw [this]
    unfold decodeMap decodeObject
    rw [skipSpace_cons _ _ (by decide)]
    simp only
    rw [if_neg (by decide)]
    rfl
  | some l =>
    have hvs : ∀ kv ∈ sortKeys l, Valid kv.1 = true ∧ Valid kv.2 = true :=
      fun kv hkv => hv l rfl kv ((sortKeys_perm l).mem_iff.1 hkv)
    have henc : encodeMap (some l) ++ rest =
        0x7B :: (joinComma (((sortKeys l).map fun kv : GoString × GoString =>
            ((kv.1, appendString kv.2, fun st => mapSet st kv.1 kv.2) :
              GoString × List UInt8 × (List (GoString × GoString) → List (GoString × GoString)))).map
              fun b => appendString b.1 ++ 0x3A :: b.2.1) ++ 0x7D :: rest) := by
      simp only [encodeMap, List.map_map, List.cons_append, List.append_assoc,
        List.singleton_append]
      rfl
    have hobj := decodeObject_members
      (fun key m s' => (decodeString [] s').map fun r => (mapSet m key r.1, r.2))
      ((sortKeys l).map fun kv : GoString × GoString =>
        ((kv.1, appendString kv.2, fun st => mapSet st kv.1 kv.2) :
          GoString × List UInt8 × (List (GoString × GoString) → List (GoString × GoString))))
      (by
        intro b hb
        obtain ⟨kv, hkv, rfl⟩ := List.mem_map.1 hb
        exact (hvs kv hkv).1)
      (by
        intro b hb st r
        obtain ⟨kv, hkv, rfl⟩ := List.mem_map.1 hb
        simp only
        rw [decodeString_appendString [] kv.2 (hvs kv hkv).2 r]
        rfl)
      (old.getD []) rest
    unfold decodeMap
    rw [henc, hobj]
    simp only [mapInto, List.foldl_map]

theorem mapInto_none (m : Option (List (GoString × GoString)))
    (hnd : ∀ l, m = some l → (l.map Prod.fst).Nodup) :
    mapInto m none = m.map sortKeys := by
  cases m with
  | none => rfl
  | some l =>
    have hperm := (sortKeys_perm l).map Prod.fst
    have hnd' : ((sortKeys l).map Prod.fst).Nodup := hperm.nodup_iff.2 (hnd l rfl)
    have := foldl_mapSet (sortKeys l) [] (by simpa using hnd')
    simp only [mapInto, Option.getD_none, this, List.nil_append, Option.map_some']

theorem decodeStream_encodeStream (s : stream) (hs : s.WellFormed) (rest : List UInt8) :
    decodeStream (encodeStream s ++ rest) = some (sortedStream s, rest) := by
  have hkS : Valid (GoString.ofString "stream") = true := by decide
  have hkV : Valid (GoString.ofString "values") = true := by decide
  have e1 : keyIs (GoString.ofString "stream") "stream" = true := by decide
  have e2 : keyIs (GoString.ofString "values") "stream" = false := by decide
  have e3 : keyIs (GoString.ofString "values") "values" = true := by decide
  have henc : encodeStream s ++ rest =
      0x7B :: (joinComma (([
          (GoString.ofString "stream", encodeMap s.Stream,
            fun st : stream => { st with Stream := mapInto s.Stream st.Stream }),
          (GoString.ofString "values", encodeSlice encodePair s.Values,
            fun st : stream => { st with Values := s.Values })] :
          List (GoString × List UInt8 × (stream → stream))).map
            fun b => appendString b.1 ++ 0x3A :: b.2.1) ++ 0x7D :: rest) := by
    simp [encodeStream, joinComma]
  have hobj := decodeObject_members streamField
    ([(GoString.ofString "stream", encodeMap s.Stream,
        fun st : stream => { st with Stream := mapInto s.Stream st.Stream }),
      (GoString.ofString "values", encodeSlice encodePair s.Values,
        fun st : stream => { st with Values := s.Values })] :
      List (GoString × List UInt8 × (stream → stream)))
    (by
      intro b hb
      simp only [List.mem_cons, List.mem_singleton, List.not_mem_nil, or_false] at hb
      rcases hb with rfl | rfl
      · exact hkS
      · exact hkV)
    (by
      intro b hb st r
      simp only [List.mem_cons, List.mem_singleton, List.not_mem_nil, or_false] at hb
      rcases hb with rfl | rfl
      · simp only [streamField, e1, if_true]
        rw [decodeMap_encodeMap s.Stream st.Stream (fun l hl => (hs.1 l hl).2) r]
        rfl
      · simp only [streamField, e2, e3, if_true, Bool.false_eq_true, if_false]
        rw [decodeArray_values s.Values hs.2 r])
    { Stream := none, Values := [] } rest
  unfold decodeStream
  rw [henc, hobj]
  simp only [List.foldl_cons, List.foldl_nil, sortedStream]
  rw [mapInto_none s.Stream (fun l hl => (hs.1 l hl).1)]

theorem encodeStream_head (s : stream) :
    ∃ c t, encodeStream s = c :: t ∧ isSpace c = false ∧ c.toNat ≠ 0x5D :=
  ⟨0x7B, _, rfl, by decide, by decide⟩

/-- The decoder reads back what the encoder wrote: for a request whose
strings are valid UTF-8 and whose map keys are distinct, `json.Unmarshal` of
`json.Marshal` is the request, each label map with its entries in the order of
their keys. -/
theorem Unmarshal_Marshal (d : lokiPushRequest) (hd : ∀ s ∈ d.Streams, s.WellFormed) :
    Unmarshal (Marshal d) = Except.ok { Streams := d.Streams.map sortedStream } := by
  have hk : Valid (GoString.ofString "streams") = true := by decide
  have e1 : keyIs (GoString.ofString "streams") "streams" = true := by decide
  have henc : Marshal d =
      0x7B :: (joinComma (([
          (GoString.ofString "streams", encodeSlice encodeStream d.Streams,
            fun st : lokiPushRequest => { st with Streams := d.Streams.map sortedStream })] :
          List (GoString × List UInt8 × (lokiPushRequest → lokiPushRequest))).map
            fun b => appendString b.1 ++ 0x3A :: b.2.1) ++ 0x7D :: []) := by
    simp [Marshal, joinComma]
  have hobj := decodeObject_members requestField
    ([(GoString.ofString "streams", encodeSlice encodeStream d.Streams,
        fun st : lokiPushRequest => { st with Streams := d.Streams.map sortedStream })] :
      List (GoString × List UInt8 × (lokiPushRequest → lokiPushRequest)))
    (by
      intro b hb
      simp only [List.mem_singleton] at hb
      subst hb
      exact hk)
    (by
      intro b hb st r
      simp only [List.mem_singleton] at hb
      subst hb
      simp only [requestField, e1, if_true]
      rw [decodeArray_encodeSlice (fun _ => decodeStream) encodeStream sortedStream
        d.Streams.length d.Streams
        (fun _ _ a ha r' => decodeStream_encodeStream a (hd a ha) r')
        (fun a _ => encodeStream_head a) (le_refl _) r])
    { Streams := [] } []
  unfold Unmarshal
  rw [henc, hobj]
  simp [skipSpace]


/-! ## Decimal strings are valid UTF-8 -/

theorem digitChar_ascii (n : Nat) (hn : n < 10) : (Nat.digitChar n).val ≤ 0x7f := by
  interval_cases n <;> decide

theorem toDigitsCore_ascii (fuel : Nat) :
    ∀ (n : Nat) (ds : List Char), (∀ c ∈ ds, c.val ≤ 0x7f) →
      ∀ c ∈ Nat.toDigitsCore 10 fuel n ds, c.val ≤ 0x7f := by
  induction fuel with
  | zero => intro n ds h c hc; exact h c (by simpa [Nat.toDigitsCore] using hc)
  | succ fuel ih =>
    intro n ds h c hc
    have hcons : ∀ c ∈ Nat.digitChar (n % 10) :: ds, c.val ≤ 0x7f := by
      intro c' hc'
      rcases List.mem_cons.1 hc' with rfl | h'
      · exact digitChar_ascii _ (Nat.mod_lt _ (by decide))
      · exact h c' h'
    unfold Nat.toDigitsCore at hc
    simp only at hc
    split_ifs at hc
    · exact hcons c hc
    · exact ih _ _ hcons c hc

theorem FormatInt10_ascii (n : Int) : ∀ c ∈ (FormatInt10 n).data, c.val ≤ 0x7f := by
  have hrepr : ∀ k : Nat, ∀ c ∈ (Nat.repr k).data, c.val ≤ 0x7f := by
    intro k c hc
    exact toDigitsCore_ascii _ k [] (by simp) c (by simpa [Nat.repr, Nat.toDigits] using hc)
  intro c hc
  unfold FormatInt10 at hc
  split_ifs at hc
  · rw [String.data_append] at hc
    rcases List.mem_append.1 hc with h | h
    · have : c = '-' := by simpa using h
      subst this
      decide
    · exact hrepr _ c h
  · exact hrepr _ c hc

theorem ofString_ascii (l : List Char) (h : ∀ c ∈ l, c.val ≤ 0x7f) :
    ∀ b ∈ GoString.ofString (String.mk l), b.toNat < 0x80 := by
  induction l with
  | nil => intro b hb; simp [GoString.ofString] at hb
  | cons c l ih =>
    intro b hb
    have hc := h c (by simp)
    simp only [GoString.ofString, List.map_cons, List.flatten_cons, List.mem_append] at hb
    rcases hb with hb | hb
    · simp only [String.utf8EncodeChar, hc, if_true, List.mem_singleton] at hb
      subst hb
      have h1 : c.val.toNat ≤ 0x7f := hc
      show c.val.toNat % 256 < 0x80
      omega
    · exact ih (fun c' hc' => h c' (by simp [hc'])) b hb

theorem validLoop_ascii (n : Nat) :
    ∀ s : List UInt8, s.length ≤ n → (∀ b ∈ s, b.toNat < 0x80) → validLoop n s = true := by
  induction n with
  | zero =>
    intro s hs _
    have : s = [] := List.eq_nil_of_length_eq_zero (by omega)
    subst this
    rfl
  | succ n ih =>
    intro s hs hb
    cases s with
    | nil => rfl
    | cons b t =>
      have hb0 := hb b (by simp)
      have hdec : DecodeRune (b :: t) = (b.toNat, 1) := by simp [DecodeRune, hb0]
      have hne : ¬ (b.toNat = RuneError ∧ True) := by unfold RuneError; omega
      simp only [validLoop, hdec, List.drop_one, List.tail_cons]
      rw [if_neg hne]
      exact ih t (by simpa using hs) (fun b' hb' => hb b' (by simp [hb']))

theorem Valid_FormatInt10 (n : Int) : Valid (GoString.ofString (FormatInt10 n)) = true :=
  validLoop_ascii _ _ (le_refl _) (ofString_ascii (FormatInt10 n).data (FormatInt10_ascii n))


/-! ## The push body read back -/

/-- C8 (amended): for every label set and every batch whose strings (label
names and values, raw lines) are valid UTF-8, and whatever gzip library whose
reader inverts its writer, decompressing and JSON-parsing the body that `send`
builds yields exactly one stream, whose label map has the entries of the
configured `Labels` (in the order of their keys) and whose values are, in
order and in equal number, the (timestamp string, line) pairs of the batch
entries. The keys of a map are distinct. -/
theorem push_body_round_trip {G Z : Type} (lib : Lib GoString G Z)
    (hgzip : ∀ w g z, lib.gzipWrite w = Except.ok g → lib.gzipClose g = Except.ok z →
      lib.gzipRead z = Except.ok w)
    (cfg : Config) (batch : List logEntry) (req : Request Z)
    (h : sendRequest (withJSON lib) cfg batch = Except.ok req)
    (hlabels : ∀ m, cfg.Labels = some m →
      (m.map Prod.fst).Nodup ∧ ∀ kv ∈ m, Valid kv.1 = true ∧ Valid kv.2 = true)
    (hraw : ∀ e ∈ batch, Valid e.raw = true) :
    ∃ s : stream, mockRequestTestServer (withJSON lib) req.Body = Except.ok { Streams := [s] } ∧
      s.Stream = cfg.Labels.map sortKeys ∧
      (∀ m, cfg.Labels = some m → (sortKeys m).Perm m) ∧
      s.Values.length = batch.length ∧
      ∀ (i : Nat) (hi : i < batch.length),
        s.Values[i]? =
          some (GoString.ofString
              (FormatInt10 (UnixNano (int64OfFloat64 (batch.get ⟨i, hi⟩).Timestamp))),
            (batch.get ⟨i, hi⟩).raw) := by
  obtain ⟨msg, g, buf, hmsg, hg, hbuf, hreq⟩ := sendRequest_ok (withJSON lib) cfg batch req h
  have hbody : req.Body = buf := by
    rw [hreq]
    cases cfg.Auth with
    | none => rfl
    | some auth => exact Authenticator.apply_body auth _
  have hmsg' : msg = Marshal ⟨[⟨cfg.Labels, formatLogEntries batch⟩]⟩ :=
    (Except.ok.inj hmsg).symm
  have hwf : ∀ s ∈ (⟨[⟨cfg.Labels, formatLogEntries batch⟩]⟩ : lokiPushRequest).Streams,
      s.WellFormed := by
    intro s hs
    simp only [List.mem_singleton] at hs
    subst hs
    refine ⟨hlabels, ?_⟩
    intro v hv
    obtain ⟨e, he, rfl⟩ := List.mem_map.1 hv
    exact ⟨Valid_FormatInt10 _, hraw e he⟩
  refine ⟨sortedStream { Stream := cfg.Labels, Values := formatLogEntries batch }, ?_, rfl,
    fun m _ => sortKeys_perm m, ?_, ?_⟩
  · unfold mockRequestTestServer
    rw [hbody]
    have hread : (withJSON lib).gzipRead buf = Except.ok msg := hgzip msg g buf hg hbuf
    rw [hread]
    show Unmarshal msg = _
    rw [hmsg', Unmarshal_Marshal _ hwf]
    rfl
  · simp [sortedStream, formatLogEntries]
  · intro i hi
    simp [sortedStream, formatLogEntries, List.getElem?_eq_getElem hi]

theorem push_body_round_trip_witness :
    sendRequest (withJSON exampleJSONLib) (exampleConfig 100 none) exampleBatch =
      Except.ok exampleJSONRequest ∧
    (∀ m, (exampleConfig 100 none).Labels = some m →
      (m.map Prod.fst).Nodup ∧ ∀ kv ∈ m, Valid kv.1 = true ∧ Valid kv.2 = true) ∧
    (∀ e ∈ exampleBatch, Valid e.raw = true) ∧
    ∃ s : stream,
      mockRequestTestServer (withJSON exampleJSONLib) exampleJSONRequest.Body =
        Except.ok { Streams := [s] } ∧
      s.Stream = (exampleConfig 100 none).Labels.map sortKeys ∧
      (∀ m, (exampleConfig 100 none).Labels = some m → (sortKeys m).Perm m) ∧
      s.Values.length = exampleBatch.length ∧
      ∀ (i : Nat) (hi : i < exampleBatch.length),
        s.Values[i]? =
          some (GoString.ofString
              (FormatInt10 (UnixNano (int64OfFloat64 (exampleBatch.get ⟨i, hi⟩).Timestamp))),
            (exampleBatch.get ⟨i, hi⟩).raw) :=
  ⟨rfl,
    (by intro m hm; cases hm; decide),
    (by decide),
    push_body_round_trip exampleJSONLib
      (fun w g z h1 h2 => by cases h1; cases h2; rfl)
      (exampleConfig 100 none) exampleBatch exampleJSONRequest rfl
      (by intro m hm; cases hm; decide) (by decide)⟩

set_option maxRecDepth 100000 in
/-- C8, as stated, fails: for the batch of one entry whose raw line holds the
byte `0xFF`, the body that `send` builds decompresses and parses to a stream
whose line has U+FFFD in place of that byte, so it is not the line of the
batch entry. -/
theorem invalid_utf8_line_not_read_back :
    (match sendRequest exampleJSONLib (exampleConfig 100 none) [exampleInvalidEntry] with
      | Except.ok req =>
        (match mockRequestTestServer exampleJSONLib req.Body with
          | Except.ok d => d.Streams.map fun s => s.Values
          | Except.error _ => [])
      | Except.error _ => []) =
      [[(GoString.ofString "1700000000000000000", exampleReplacedLine)]] ∧
    exampleReplacedLine ≠ exampleInvalidEntry.raw ∧
    (formatLogEntries [exampleInvalidEntry]).map Prod.snd = [exampleInvalidLine] := by
  refine ⟨by decide, by decide, by decide⟩

/-- C9 (amended): on every request built by `send` with a configured
authenticator: with a `BasicAuthenticator` (u, p) the header `Authorization`
is `Basic ` followed by the standard base64 encoding of `u:p`, and
`Content-Type` and `Content-Encoding` are `application/json` and `gzip`; with
an `APIKeyAuthenticator` (K, V) the header `K` has the value `V`, and
`Content-Type`, `Content-Encoding` are `application/json`, `gzip` unless `K`
is that header's name (up to canonical letter case), in which case the header
holds `V`. -/
theorem auth_headers_on_request {W G Z : Type} (lib : Lib W G Z) (cfg : Config)
    (batch : List logEntry) (req : Request Z)
    (h : sendRequest lib cfg batch = Except.ok req) :
    (∀ u p, cfg.Auth = some (Authenticator.BasicAuthenticator u p) →
      req.Header.Get "Authorization" = "Basic " ++ EncodeToString (u ++ ":" ++ p) ∧
      req.Header.Get "Content-Type" = "application/json" ∧
      req.Header.Get "Content-Encoding" = "gzip") ∧
    (∀ K V, cfg.Auth = some (Authenticator.APIKeyAuthenticator K V) →
      req.Header.Get K = V ∧
      (CanonicalMIMEHeaderKey K ≠ "Content-Type" →
        req.Header.Get "Content-Type" = "application/json") ∧
      (CanonicalMIMEHeaderKey K = "Content-Type" → req.Header.Get "Content-Type" = V) ∧
      (CanonicalMIMEHeaderKey K ≠ "Content-Encoding" →
        req.Header.Get "Content-Encoding" = "gzip") ∧
      (CanonicalMIMEHeaderKey K = "Content-Encoding" →
        req.Header.Get "Content-Encoding" = V)) := by
  obtain ⟨msg, g, buf, _, _, _, hreq⟩ := sendRequest_ok lib cfg batch req h
  have hct : CanonicalMIMEHeaderKey "Content-Type" = "Content-Type" := by decide
  have hce : CanonicalMIMEHeaderKey "Content-Encoding" = "Content-Encoding" := by decide
  have hau : CanonicalMIMEHeaderKey "Authorization" = "Authorization" := by decide
  have hbaseT : Header.Get ((Header.Set [] "Content-Type" "application/json").Set
      "Content-Encoding" "gzip") "Content-Type" = "application/json" := by decide
  have hbaseE : Header.Get ((Header.Set [] "Content-Type" "application/json").Set
      "Content-Encoding" "gzip") "Content-Encoding" = "gzip" := by decide
  constructor
  · intro u p hauth
    rw [hauth] at hreq
    subst hreq
    simp only [Authenticator.Apply, Request.SetBasicAuth]
    refine ⟨Header.get_set_same _ _ _, ?_, ?_⟩
    · rw [Header.get_set_other _ _ _ _ (by rw [hau, hct]; decide)]
      exact hbaseT
    · rw [Header.get_set_other _ _ _ _ (by rw [hau, hce]; decide)]
      exact hbaseE
  · intro K V hauth
    rw [hauth] at hreq
    subst hreq
    simp only [Authenticator.Apply]
    refine ⟨Header.get_set_same _ _ _, ?_, ?_, ?_, ?_⟩
    · intro hK
      rw [Header.get_set_other _ _ _ _ (by rw [hct]; exact hK)]
      exact hbaseT
    · intro hK
      simp [Header.Set, Header.Get, List.find?, hct, hK]
    · intro hK
      rw [Header.get_set_other _ _ _ _ (by rw [hce]; exact hK)]
      exact hbaseE
    · intro hK
      simp [Header.Set, Header.Get, List.find?, hce, hK]

theorem auth_headers_on_request_witness :
    sendRequest exampleLib
        (exampleConfig 100 (some (Authenticator.BasicAuthenticator "user" "password")))
        exampleBatch =
      Except.ok ((Authenticator.BasicAuthenticator "user" "password").Apply exampleRequest) ∧
    ((Authenticator.BasicAuthenticator "user" "password").Apply exampleRequest).Header.Get
        "Authorization" = "Basic " ++ EncodeToString ("user" ++ ":" ++ "password") ∧
    "Basic " ++ EncodeToString ("user" ++ ":" ++ "password") = "Basic dXNlcjpwYXNzd29yZA==" :=
  ⟨rfl,
    ((auth_headers_on_request exampleLib
      (exampleConfig 100 (some (Authenticator.BasicAuthenticator "user" "password")))
      exampleBatch ((Authenticator.BasicAuthenticator "user" "password").Apply exampleRequest)
      rfl).1 "user" "password" rfl).1,
    by decide⟩

/-- C9, as stated, fails: with the `APIKeyAuthenticator` whose `KeyName` is
`Content-Type`, the request built by `send` carries `Content-Type: text/plain`
instead of `application/json`. -/
theorem api_key_can_replace_content_type :
    sendRequest exampleLib
        (exampleConfig 100 (some (Authenticator.APIKeyAuthenticator "Content-Type" "text/plain")))
        exampleBatch =
      Except.ok
        ((Authenticator.APIKeyAuthenticator "Content-Type" "text/plain").Apply exampleRequest) ∧
    ((Authenticator.APIKeyAuthenticator "Content-Type" "text/plain").Apply
      exampleRequest).Header.Get "Content-Type" = "text/plain" ∧
    ((Authenticator.APIKeyAuthenticator "Content-Type" "text/plain").Apply
      exampleRequest).Header.Get "Content-Type" ≠ "application/json" := by
  refine ⟨rfl, by decide, by decide⟩

/-! ## The sink -/

/-- C10 (amended): if `p` does not parse, `Write` returns `(0, err)` and the
channel is unchanged; if `p` parses and the channel buffer has room, `Write`
returns `(len(p), nil)` and exactly one entry is appended to the channel, with
`raw` equal to `p` and the level, message and caller parsed from `p`; if `p`
parses and the buffer is full, `Write` blocks in the send. -/
theorem write_error_or_enqueue (Unmarshal : GoString → logEntry → Except String logEntry)
    (now : Int) (entries : List logEntry) (p : GoString) :
    (∀ err, Unmarshal p logEntry.zero = Except.error err →
      sink.Write Unmarshal now entries p = Call.returned (0, some err) entries) ∧
    (∀ parsed, Unmarshal p logEntry.zero = Except.ok parsed → entries.length < entriesCap →
      ∃ entry, sink.Write Unmarshal now entries p =
          Call.returned (p.length, none) (entries ++ [entry]) ∧
        entry.raw = p ∧ entry.Level = parsed.Level ∧ entry.Message = parsed.Message ∧
        entry.Caller = parsed.Caller) ∧
    (∀ parsed, Unmarshal p logEntry.zero = Except.ok parsed → entriesCap ≤ entries.length →
      sink.Write Unmarshal now entries p = Call.blocked) := by
  refine ⟨?_, ?_, ?_⟩
  · intro err herr
    simp [sink.Write, herr]
  · intro parsed hok hroom
    refine ⟨{ parsed with raw := p, timestamp := some now }, ?_, rfl, rfl, rfl, rfl⟩
    simp [sink.Write, hok, chanSend, hroom]
  · intro parsed hok hfull
    have : ¬ entries.length < entriesCap := Nat.not_lt.2 hfull
    simp [sink.Write, hok, chanSend, this]

/-- C10, as stated, fails: with 100 entries buffered in the channel, `Write`
of the input `{}`, which parses, does not return `(2, nil)`: it blocks in the
send and nothing is enqueued. -/
theorem write_blocks_on_full_channel :
    exampleUnmarshal (GoString.ofString "\x7b\x7d") logEntry.zero = Except.ok logEntry.zero ∧
    sink.Write exampleUnmarshal 0 (List.replicate 100 logEntry.zero)
      (GoString.ofString "\x7b\x7d") = Call.blocked ∧
    sink.Write exampleUnmarshal 0 [] (GoString.ofString "\x7b\x7d") =
      Call.returned (2, none)
        [{ logEntry.zero with raw := GoString.ofString "\x7b\x7d", timestamp := some 0 }] := by
  refine ⟨rfl, by decide, by decide⟩

end ZapLoki
